import Mathlib

/-!
The sv6 physical page allocator and mnode cache: a shallow embedding.

Definitions are translated from `kernel/kalloc.cc` and `kernel/mnode.cc`.
Machine integers are naturals with explicit reduction modulo `2 ^ 64`;
pointers are naturals with `0` for `nullptr`.  The executions modelled are
sequential, one processor running one operation to completion, except in the
part on concurrent calls on one pool, where the single accesses of several
processors to shared memory are interleaved.
-/

namespace Sv6

/-! ## Machine words and fatal errors -/

/-- Modulus of `u64` arithmetic. -/
def U64 : Nat := 2 ^ 64

/-- The `panic(...)` call sites of `kalloc.cc` and `mnode.cc`, and a failed
`assert`. -/
inductive Panic where
  | aba_race
  | misaligned
  | unknown_region
  | slabinit_memnext
  | slabinit_memsize
  | assert_failed
  | initkalloc_e820next
  | unknown_type
  | insert_failed
  | read_from_disk
  deriving DecidableEq, Repr

/-- Outcome of a call that may halt the kernel or spin for ever in a loop
whose termination depends on its input (`fuel` exhausted). -/
inductive Res (α : Type) where
  | ok (a : α)
  | panic (p : Panic)
  | fuel
  deriving DecidableEq, Repr

/-! ## kmem: the free list of runs -/

/-- The `next` field of every potential `struct run`, indexed by the address
of the run. -/
abbrev Mem := Nat → Nat

/-- Modelled from the spec: the type of `kmem::freelist` is declared in
`kalloc.hh`, which is not among the sources.  The head is "a tagged reference
to the top run - pointer plus a monotonically distinguishing tag", and "the tag
must change on every successful CAS".  The width of the tag is not known, so
the tag is an unbounded counter here. -/
structure VPtr where
  ptr : Nat
  ver : Nat
  deriving DecidableEq, Repr

/-- Modelled from the spec: `compare_exchange(expected, desired)` on the tagged
head.  It installs `desired` with a fresh tag when the head still equals
`expected`, and reports whether it did. -/
def VPtr.compare_exchange (cur expected : VPtr) (desired : Nat) : Bool × VPtr :=
  if cur = expected then (true, { ptr := desired, ver := cur.ver + 1 }) else (false, cur)

/-- The fields of `struct kmem` used by `kalloc.cc` (the `name` is only
printed).  `nfree` is a `u64` counter. -/
structure Kmem where
  size : Nat
  ninit : Nat
  freelist : VPtr
  nfree : Nat
  deriving DecidableEq, Repr

/-- The loop of `kmem::alloc`, one iteration per unit of fuel; `none` when the
fuel runs out.  The result pointer `0` is `nullptr`.  `mtlabel` only traces. -/
def Kmem.alloc_loop : Nat → Kmem → Mem → Option (Res Nat × Kmem)
  | 0, _, _ => none
  | fuel + 1, m, heap =>
    let headval := m.freelist
    let r := headval.ptr
    if r = 0 then some (.ok 0, m)
    else
      let nxt := heap r
      match m.freelist.compare_exchange headval nxt with
      | (true, fl) =>
        if heap r ≠ nxt then some (.panic .aba_race, { m with freelist := fl })
        else some (.ok r, { m with freelist := fl, nfree := (m.nfree + U64 - 1) % U64 })
      | (false, _) => Kmem.alloc_loop fuel m heap

/-- Sequential `kmem::alloc`: nothing runs between the load of the head and the
compare-exchange, so the exchange succeeds and the loop body runs once. -/
def Kmem.alloc (m : Kmem) (heap : Mem) : Res Nat × Kmem :=
  let headval := m.freelist
  let r := headval.ptr
  if r = 0 then (.ok 0, m)
  else
    let nxt := heap r
    let fl : VPtr := { ptr := nxt, ver := headval.ver + 1 }
    if heap r ≠ nxt then (.panic .aba_race, { m with freelist := fl })
    else (.ok r, { m with freelist := fl, nfree := (m.nfree + U64 - 1) % U64 })

/-- The loop of `kmem::free`, one iteration per unit of fuel.  The store
`r->next = head` is made before each exchange attempt; `mtunlabel` only
traces. -/
def Kmem.free_loop : Nat → Kmem → Mem → Nat → Option (Kmem × Mem)
  | 0, _, _, _ => none
  | fuel + 1, m, heap, r =>
    let headval := m.freelist
    let heap1 := Function.update heap r headval.ptr
    match m.freelist.compare_exchange headval r with
    | (true, fl) => some ({ m with freelist := fl, nfree := (m.nfree + 1) % U64 }, heap1)
    | (false, _) => Kmem.free_loop fuel m heap1 r

/-- Sequential `kmem::free`: one store to `r->next`, one successful exchange,
one increment of `nfree`. -/
def Kmem.free (m : Kmem) (heap : Mem) (r : Nat) : Kmem × Mem :=
  let headval := m.freelist
  ({ m with freelist := { ptr := r, ver := headval.ver + 1 }, nfree := (m.nfree + 1) % U64 },
   Function.update heap r headval.ptr)

/-- The runs reachable from pointer `p` by following `next` are exactly `l`,
in order, and the walk ends at `nullptr`. -/
def Chain (heap : Mem) : Nat → List Nat → Prop
  | p, [] => p = 0
  | p, r :: rs => p = r ∧ r ≠ 0 ∧ Chain heap (heap r) rs

instance Chain.instDecidable (heap : Mem) : (p : Nat) → (l : List Nat) → Decidable (Chain heap p l)
  | p, [] => inferInstanceAs (Decidable (p = 0))
  | p, r :: rs =>
    have := Chain.instDecidable heap (heap r) rs
    inferInstanceAs (Decidable (p = r ∧ r ≠ 0 ∧ Chain heap (heap r) rs))

/-- One call on a pool in a sequential history. -/
inductive Op where
  | alloc
  | free (r : Nat)
  deriving DecidableEq, Repr

/-- Effect of one call on the pool and the memory. -/
def Op.step (s : Kmem × Mem) : Op → Kmem × Mem
  | .alloc => ((s.1.alloc s.2).2, s.2)
  | .free r => s.1.free s.2 r

/-- Effect of a finite sequence of calls. -/
def runOps (s : Kmem × Mem) (ops : List Op) : Kmem × Mem :=
  ops.foldl Op.step s

/-- Every `free r` in the history is given a run: a non-null 64-bit address
that is not on the free list at the moment of the call. -/
def OpsOk : Kmem × Mem → List Op → Prop
  | _, [] => True
  | s, .alloc :: ops => OpsOk (Op.step s .alloc) ops
  | s, .free r :: ops =>
    (r ≠ 0 ∧ r < U64 ∧ ∀ l, Chain s.2 s.1.freelist.ptr l → r ∉ l) ∧ OpsOk (Op.step s (.free r)) ops

/-- The pool `m` holds the free list `l`: the list is the chain from the head,
its length is the free count, and its runs are 64-bit addresses. -/
def PoolOk (m : Kmem) (heap : Mem) (l : List Nat) : Prop :=
  Chain heap m.freelist.ptr l ∧ l.length = m.nfree ∧ ∀ r ∈ l, r < U64

/-- Frees the runs `rs` one after the other, first to last. -/
def freeAll (s : Kmem × Mem) (rs : List Nat) : Kmem × Mem :=
  rs.foldl (fun st r => st.1.free st.2 r) s

/-- Calls `kmem::alloc` `n` times in a row and collects the results. -/
def allocN : Nat → Kmem → Mem → List (Res Nat) × Kmem
  | 0, m, _ => ([], m)
  | n + 1, m, heap =>
    let a := m.alloc heap
    let rest := allocN n a.2 heap
    (a.1 :: rest.1, rest.2)

/-- An empty page pool as `initkalloc` sets it up before filling it. -/
def emptyPool : Kmem := { size := 4096, ninit := 0, freelist := { ptr := 0, ver := 0 }, nfree := 0 }

/-- A memory in which every `next` field is null. -/
def zeroMem : Mem := fun _ => 0

/-! ## The boot memory map -/

/-- Size of a page.  `mmu.h` is not among the sources; `kalloc.cc` documents
`kalloc` as allocating "one 4096-byte page". -/
def PGSIZE : Nat := 4096

/-- Constants that `kalloc.cc` takes from headers that are not among the
sources: the number of processors and the debug switch for junk filling. -/
structure Config where
  NCPU : Nat
  ALLOC_MEMSET : Bool
  deriving DecidableEq, Repr

/-- The address translations `v2p` and `p2v` of `kernel.hh`, which is not among
the sources; they are parameters of everything that uses them. -/
structure Layout where
  v2p : Nat → Nat
  p2v : Nat → Nat

/-- One recorded range of the table `mem`: the fields of `struct Mbmem` that
`kalloc.cc` reads after `initmem`. -/
structure Mbmem where
  base : Nat
  length : Nat
  deriving DecidableEq, Repr

/-- The value `(void *)-1` and `-1ull`. -/
def END : Nat := U64 - 1

/-- The scan of `memsearch` over the first `nmem` entries of `mem`, here the
whole list: the first entry with `base <= pa` and `base + length > pa`, the sum
taken in `u64`, together with its index; `none` is the null result. -/
def memsearch : List Mbmem → Nat → Option (Nat × Mbmem)
  | [], _ => none
  | e :: es, pa =>
    if e.base ≤ pa ∧ (e.base + e.length) % U64 > pa then some (0, e)
    else (memsearch es pa).map (fun x => (x.1 + 1, x.2))

/-- The function `memsize`: bytes left in the range of `va`, or `-1`. -/
def memsize (L : Layout) (mem : List Mbmem) (va : Nat) : Nat :=
  let pa := L.v2p va
  match memsearch mem pa with
  | none => END
  | some (_, e) => ((e.base + e.length) % U64 + U64 - pa) % U64

/-- The function `memnext`: the address `inc` bytes on if that is still below
the end of the range of `va`, else the base of the entry after that range in
the table, else `-1`.  The loop after `q = mem+nmem` returns in its first
iteration. -/
def memnext (L : Layout) (mem : List Mbmem) (va inc : Nat) : Nat :=
  let pa := L.v2p va
  match memsearch mem pa with
  | none => END
  | some (i, e) =>
    let pa1 := (pa + inc) % U64
    if pa1 < (e.base + e.length) % U64 then L.p2v pa1
    else
      match mem[i + 1]? with
      | some e1 => L.p2v e1.base
      | none => END

/-- The physical address `pa` lies in one of the recorded ranges
`[base, base + length)`. -/
def InRange (mem : List Mbmem) (pa : Nat) : Prop :=
  ∃ e ∈ mem, e.base ≤ pa ∧ pa < e.base + e.length

instance InRange.instDecidable (mem : List Mbmem) (pa : Nat) : Decidable (InRange mem pa) :=
  inferInstanceAs (Decidable (∃ e ∈ mem, e.base ≤ pa ∧ pa < e.base + e.length))

/-- What holds of the table `initmem` records from a loader map of physical
ranges: every recorded base is at least `0x100000` (the `use` test of
`initmem`) and no range runs past the end of the 64-bit address space. -/
def MemOk (mem : List Mbmem) : Prop :=
  ∀ e ∈ mem, 0x100000 ≤ e.base ∧ e.base + e.length < U64

instance MemOk.instDecidable (mem : List Mbmem) : Decidable (MemOk mem) :=
  inferInstanceAs (Decidable (∀ e ∈ mem, 0x100000 ≤ e.base ∧ e.base + e.length < U64))

/-! ## Pools per processor -/

/-- The 8-byte word that `memset` with byte `c` leaves behind. -/
def memset_word (c : Nat) : Nat := 0x0101010101010101 * c

/-- Effect of `memset(v, c, n)` on the `next` fields: every field whose eight
bytes lie inside `[v, v + n)` reads as the fill pattern afterwards.  A field
that straddles an end of the interval is not tracked. -/
def memset (heap : Mem) (v c n : Nat) : Mem :=
  fun a => if v ≤ a ∧ a + 8 ≤ v + n then memset_word c else heap a

/-- A `percpu<kmem>`: one pool per processor id. -/
abbrev Pools := Nat → Kmem

/-- The function `kfree_pool`.  On a panic the pool and the memory are returned
as they are at that point. -/
def kfree_pool (cfg : Config) (L : Layout) (mem : List Mbmem) (kinited : Bool)
    (m : Kmem) (heap : Mem) (v : Nat) : Res Unit × Kmem × Mem :=
  if v % PGSIZE ≠ 0 then (.panic .misaligned, m, heap)
  else if memsize L mem v = END then (.panic .unknown_region, m, heap)
  else
    let heap1 := if cfg.ALLOC_MEMSET ∧ kinited ∧ m.size ≤ 16384 then memset heap v 1 m.size else heap
    let s := m.free heap1 v
    (.ok (), s.1, s.2)

/-- The loop of `kalloc_pool`, with `n` iterations left and loop counter `i`
(a `u32`); `cn` is the index of the pool `m` points at.  It stops at the first
pool whose `alloc` does not return null. -/
def kalloc_pool_loop (cfg : Config) (startcpu : Nat) (heap : Mem) :
    Nat → Nat → Nat → Pools → Res Nat × Nat × Pools
  | 0, _, cn, km => (.ok 0, cn, km)
  | n + 1, i, _, km =>
    let cn := ((i + startcpu) % 2 ^ 32) % cfg.NCPU
    let a := (km cn).alloc heap
    let km1 := Function.update km cn a.2
    if a.1 = .ok 0 then kalloc_pool_loop cfg startcpu heap n (i + 1) cn km1
    else (a.1, cn, km1)

/-- The function `kalloc_pool` run on processor `startcpu`: the pointer
returned (`0` for out of memory), the pools and the memory afterwards. -/
def kalloc_pool (cfg : Config) (startcpu : Nat) (km : Pools) (heap : Mem) :
    Res Nat × Pools × Mem :=
  let o := kalloc_pool_loop cfg startcpu heap cfg.NCPU 0 0 km
  match o.1 with
  | .ok r =>
    if r = 0 then (.ok 0, o.2.2, heap)
    else if cfg.ALLOC_MEMSET ∧ (o.2.2 o.2.1).size ≤ 16384 then
      (.ok r, o.2.2, memset heap r 2 (o.2.2 o.2.1).size)
    else (.ok r, o.2.2, heap)
  | other => (other, o.2.2, heap)

/-- The function `kfree` run on processor `cpu`: `mykmem()` is that processor's
entry of `kmems`. -/
def kfree (cfg : Config) (L : Layout) (mem : List Mbmem) (kinited : Bool) (cpu : Nat)
    (kmems : Pools) (heap : Mem) (v : Nat) : Res Unit × Pools × Mem :=
  let o := kfree_pool cfg L mem kinited (kmems cpu) heap v
  (o.1, Function.update kmems cpu o.2.1, o.2.2)

/-- The function `ksfree` run on processor `cpu`: `*slabmem[slab]` is that
processor's pool of the kind `slab`. -/
def ksfree (cfg : Config) (L : Layout) (mem : List Mbmem) (kinited : Bool) (cpu : Nat)
    (slabmem : Nat → Pools) (heap : Mem) (slab v : Nat) : Res Unit × (Nat → Pools) × Mem :=
  let o := kfree_pool cfg L mem kinited (slabmem slab cpu) heap v
  (o.1, Function.update slabmem slab (Function.update (slabmem slab) cpu o.2.1), o.2.2)

/-- The direct map used in examples: physical address `pa` is mapped at
`KBASE + pa`, with `KBASE = 0xFFFFFF0000000000`. -/
def directMap : Layout where
  v2p := fun va => (va + U64 - 0xFFFFFF0000000000) % U64
  p2v := fun pa => (pa + 0xFFFFFF0000000000) % U64

/-- Four processors, junk filling switched on. -/
def demoCfg : Config := { NCPU := 4, ALLOC_MEMSET := true }

/-- Page pools of four processors: processor 0 holds the page at `0x5000`, the
others hold nothing. -/
def demoPools : Pools := fun c =>
  if c = 0 then { size := 4096, ninit := 0, freelist := { ptr := 0x5000, ver := 0 }, nfree := 1 }
  else emptyPool

/-- A map of two adjacent ranges: one page at 1 MiB, sixteen pages after it. -/
def demoMem : List Mbmem := [{ base := 0x100000, length := 0x1000 }, { base := 0x101000, length := 0x10000 }]

/-- The table is ordered and its ranges are pairwise disjoint: every range ends
at or before the base of every later one. -/
def Ordered (mem : List Mbmem) : Prop :=
  mem.Pairwise (fun a b => a.base + a.length ≤ b.base)

instance Ordered.instDecidable (mem : List Mbmem) : Decidable (Ordered mem) :=
  inferInstanceAs (Decidable (mem.Pairwise (fun (a b : Mbmem) => a.base + a.length ≤ b.base)))

/-! ## slabinit -/

/-- The variables `slabinit` works on: the pool `*k`, the cursor `*p`, the
byte count `*off`, and the memory. -/
structure SlabState where
  k : Kmem
  p : Nat
  off : Nat
  heap : Mem

/-- The `while` loop of `slabinit`: while the range of the cursor has fewer
than `size` bytes left, move the cursor with `memnext`, and panic when that
returns `-1`.  One iteration per unit of fuel. -/
def slabinit_skip (L : Layout) (mem : List Mbmem) (size : Nat) : Nat → Nat → Res Nat
  | 0, _ => .fuel
  | fuel + 1, p =>
    if memsize L mem p < size then
      if memnext L mem p size = END then .panic .slabinit_memsize
      else slabinit_skip L mem size fuel (memnext L mem p size)
    else .ok p

/-- The `for` loop of `slabinit` with `n` iterations left.  `kfree_pool` leaves
`k->ninit` and `k->size` alone, so the bound of the loop is fixed on entry; the
counter is an `int`, so the model is that of the source for `ninit < 2 ^ 31`.
`fuel` bounds each run of the inner loop. -/
def slabinit_loop (cfg : Config) (L : Layout) (mem : List Mbmem) (kinited : Bool) (fuel : Nat) :
    Nat → SlabState → Res SlabState
  | 0, st => .ok st
  | n + 1, st =>
    if st.p = END then .panic .slabinit_memnext
    else
      match slabinit_skip L mem st.k.size fuel st.p with
      | .ok p1 =>
        match (kfree_pool cfg L mem kinited st.k st.heap p1).1 with
        | .ok _ =>
          slabinit_loop cfg L mem kinited fuel n
            { k := (kfree_pool cfg L mem kinited st.k st.heap p1).2.1
              p := memnext L mem p1 (kfree_pool cfg L mem kinited st.k st.heap p1).2.1.size
              off := (st.off + (kfree_pool cfg L mem kinited st.k st.heap p1).2.1.size) % U64
              heap := (kfree_pool cfg L mem kinited st.k st.heap p1).2.2 }
        | .panic e => .panic e
        | .fuel => .fuel
      | .panic e => .panic e
      | .fuel => .fuel

/-- The function `slabinit(k, p, off)`. -/
def slabinit (cfg : Config) (L : Layout) (mem : List Mbmem) (kinited : Bool) (fuel : Nat)
    (st : SlabState) : Res SlabState :=
  slabinit_loop cfg L mem kinited fuel st.k.ninit st

/-- Pushing the chunk at `c` with `kfree_pool`: the pool and memory after. -/
def pushChunk (cfg : Config) (L : Layout) (mem : List Mbmem) (kinited : Bool)
    (s : Kmem × Mem) (c : Nat) : Kmem × Mem :=
  (kfree_pool cfg L mem kinited s.1 s.2 c).2

/-- The translations are inverse to each other on the physical addresses up to
the end of a recorded range: `v2p (p2v pa) = pa`. -/
def DirectOn (L : Layout) (mem : List Mbmem) : Prop :=
  ∀ pa, (∃ e ∈ mem, pa ≤ e.base + e.length) → L.v2p (L.p2v pa) = pa

/-- A pool of two-page objects with two to preallocate, the cursor at the
start of `demoMem`. -/
def demoSlab : SlabState :=
  { k := { size := 0x2000, ninit := 2, freelist := { ptr := 0, ver := 0 }, nfree := 0 }
    p := 0xFFFFFF0000100000
    off := 0
    heap := zeroMem }

/-- The state `slabinit` leaves from `demoSlab`: the chunks at `0x101000` and
`0x103000` of the second range are on the pool. -/
def demoSlabOut : SlabState :=
  { k := { size := 0x2000, ninit := 2, freelist := { ptr := 0xFFFFFF0000103000, ver := 2 }, nfree := 2 }
    p := 0xFFFFFF0000105000
    off := 0x4000
    heap := Function.update (Function.update zeroMem 0xFFFFFF0000101000 0)
      0xFFFFFF0000103000 0xFFFFFF0000101000 }

/-! ## mnode: the cache pin -/

/-- The fields of `mnode` that `mnode.cc` handles.  Modelled from the spec: the
reference count lives in a base class that is not among the sources; it is the
"strong refcount" that `inc()` and `dec()` adjust by one. -/
structure Mnode where
  fs_ : Nat
  inum_ : Nat
  cache_pin_ : Bool
  valid_ : Bool
  refcount : Int
  deriving DecidableEq, Repr

/-- The constructor `mnode::mnode(fs, inum)`: not pinned, not valid.  The
count `refs` is the one the base class starts the object with. -/
def Mnode.new (fs inum : Nat) (refs : Int) : Mnode :=
  { fs_ := fs, inum_ := inum, cache_pin_ := false, valid_ := false, refcount := refs }

/-- Modelled from the spec: `inc()` adds one strong reference. -/
def Mnode.inc (m : Mnode) : Mnode := { m with refcount := m.refcount + 1 }

/-- Modelled from the spec: `dec()` drops one strong reference. -/
def Mnode.dec (m : Mnode) : Mnode := { m with refcount := m.refcount - 1 }

/-- The helper `cmpxch(&x, expected, desired)` of `atomic_util.hh`, which is
not among the sources: a compare-and-exchange that reports whether it stored.
The result is the report and the value of `x` afterwards. -/
def cmpxch (cur expected desired : Bool) : Bool × Bool :=
  if cur = expected then (true, desired) else (false, cur)

/-- The function `mnode::cache_pin(flag)`. -/
def Mnode.cache_pin (m : Mnode) (flag : Bool) : Mnode :=
  if m.cache_pin_ = flag then m
  else if (cmpxch m.cache_pin_ (!flag) flag).1 = false then
    { m with cache_pin_ := (cmpxch m.cache_pin_ (!flag) flag).2 }
  else if flag then Mnode.inc { m with cache_pin_ := (cmpxch m.cache_pin_ (!flag) flag).2 }
  else Mnode.dec { m with cache_pin_ := (cmpxch m.cache_pin_ (!flag) flag).2 }

/-- The function `mnode::linkcount::onzero()`: the link count reached zero, the
node is unpinned. -/
def Mnode.linkcount_onzero (m : Mnode) : Mnode := m.cache_pin false

/-! ## mfile: the page table and the resizer -/

/-- Modelled from the spec: the macro `PGROUNDUP` of `mmu.h`, which is not
among the sources: the size rounded up to a whole number of pages
("page-rounded", "ceil(size/PAGE)" pages), computed in `u64`. -/
def PGROUNDUP (a : Nat) : Nat := (a + PGSIZE - 1) % U64 / PGSIZE * PGSIZE

/-- The fields of `mfile`: the byte size and the sparse page map.  A slot of
`pages_` is unset (`none`) or holds a `page_state` with its page reference, a
pointer to a `page_info` (`0` for an empty `sref`). -/
structure Mfile where
  size_ : Nat
  pages_ : Nat → Option Nat

/-- A file fresh from its constructor: no bytes, no page. -/
def Mfile.empty : Mfile := { size_ := 0, pages_ := fun _ => none }

/-- The function `mfile::resizer::resize_append(size, pi)`.  The `assert` is
the first statement; when it fails the file is as it was.  The range lock has
no sequential effect. -/
def Mfile.resize_append (mf : Mfile) (size pi : Nat) : Res Unit × Mfile :=
  if PGROUNDUP mf.size_ / PGSIZE + 1 = PGROUNDUP size / PGSIZE then
    (.ok (), { size_ := size
               pages_ := Function.update mf.pages_ (PGROUNDUP mf.size_ / PGSIZE) (some pi) })
  else (.panic .assert_failed, mf)

/-- The function `mfile::get_page(pageidx)`: an empty reference (`0`) for an
unset slot, whether or not the index is below the page count (reading from
disk is not implemented); else a new reference to the page of the slot. -/
def Mfile.get_page (mf : Mfile) (pageidx : Nat) : Nat :=
  match mf.pages_ pageidx with
  | none => if pageidx < PGROUNDUP mf.size_ / PGSIZE then 0 else 0
  | some pg => pg

/-- Modelled from the spec: `pages_.unset(begin, end)` of the radix array, which
is not among the sources: it "clears those slots to unset", the slots being
the half-open index range `[b, e)`. -/
def unset (pages : Nat → Option Nat) (b e : Nat) : Nat → Option Nat :=
  fun i => if b ≤ i ∧ i < e then none else pages i

/-- The function `mfile::resizer::resize_nogrow(newsize)`.  The store to
`size_` is the second statement and the `assert` the third, so a failed
assertion leaves the new size behind. -/
def Mfile.resize_nogrow (mf : Mfile) (newsize : Nat) : Res Unit × Mfile :=
  if PGROUNDUP newsize ≤ PGROUNDUP mf.size_ then
    (.ok (), { size_ := newsize
               pages_ := unset mf.pages_ (PGROUNDUP newsize / PGSIZE) (PGROUNDUP mf.size_ / PGSIZE) })
  else (.panic .assert_failed, { size_ := newsize, pages_ := mf.pages_ })

/-- The states of the file after each store of `resize_nogrow`, in program
order: first `size_ = newsize`, then, past the assertion, `unset(begin, end)`. -/
def Mfile.resize_nogrow_steps (mf : Mfile) (newsize : Nat) : List Mfile :=
  if PGROUNDUP newsize ≤ PGROUNDUP mf.size_ then
    [{ size_ := newsize, pages_ := mf.pages_ },
     { size_ := newsize
       pages_ := unset mf.pages_ (PGROUNDUP newsize / PGSIZE) (PGROUNDUP mf.size_ / PGSIZE) }]
  else [{ size_ := newsize, pages_ := mf.pages_ }]

/-- The states of the file after each store of `resize_append`, in program
order: past the assertion first `fill(it, page_state(pi))`, then
`size_ = size`. -/
def Mfile.resize_append_steps (mf : Mfile) (size pi : Nat) : List Mfile :=
  if PGROUNDUP mf.size_ / PGSIZE + 1 = PGROUNDUP size / PGSIZE then
    [{ size_ := mf.size_
       pages_ := Function.update mf.pages_ (PGROUNDUP mf.size_ / PGSIZE) (some pi) },
     { size_ := size
       pages_ := Function.update mf.pages_ (PGROUNDUP mf.size_ / PGSIZE) (some pi) }]
  else []

/-- The number of pages of a file of `size` bytes: `ceil(size / PAGE)`. -/
def pageCount (size : Nat) : Nat := (size + PGSIZE - 1) / PGSIZE

/-- The page rounding of `size` does not overflow 64 bits. -/
def NoWrap (size : Nat) : Prop := size + PGSIZE - 1 < U64

instance NoWrap.instDecidable (size : Nat) : Decidable (NoWrap size) :=
  inferInstanceAs (Decidable (size + PGSIZE - 1 < U64))

/-- The invariant of the spec: every mapped (set) page index is strictly less
than `ceil(size / PAGE)`. -/
def Mfile.Inv (mf : Mfile) : Prop :=
  ∀ i, mf.pages_ i ≠ none → i < pageCount mf.size_

/-- The same bound with the page count as the code computes it: no slot at or
past `PGROUNDUP(size_) / PGSIZE` is set. -/
def Mfile.Bounded (mf : Mfile) : Prop :=
  ∀ i, PGROUNDUP mf.size_ / PGSIZE ≤ i → mf.pages_ i = none

/-- One call on the resizer of a file. -/
inductive ROp where
  | append (size pi : Nat)
  | nogrow (newsize : Nat)
  deriving DecidableEq, Repr

/-- Effect of one resizer call on the file. -/
def ROp.step (mf : Mfile) : ROp → Mfile
  | .append size pi => (mf.resize_append size pi).2
  | .nogrow newsize => (mf.resize_nogrow newsize).2

/-- The call passes its assertion, and its size argument rounds to pages
without overflow. -/
def ROp.Ok (mf : Mfile) : ROp → Prop
  | .append size pi => (mf.resize_append size pi).1 = .ok () ∧ NoWrap size
  | .nogrow newsize => (mf.resize_nogrow newsize).1 = .ok () ∧ NoWrap newsize

/-- Every call of the history passes its assertion in the state it meets. -/
def ROpsOk : Mfile → List ROp → Prop
  | _, [] => True
  | mf, op :: ops => ROp.Ok mf op ∧ ROpsOk (ROp.step mf op) ops

/-- A file grown from empty to five pages by five `resize_append` calls; page
`i` is the `page_info` at `0x7000 + 0x1000 * i`. -/
def fivePages : Mfile :=
  [ROp.append 4096 0x7000, .append 8192 0x8000, .append 12288 0x9000, .append 16384 0xA000,
    .append 20480 0xB000].foldl ROp.step Mfile.empty

/-- A file of one page, the `page_info` at `0x7000`. -/
def onePage : Mfile := (Mfile.empty.resize_append 4096 0x7000).2

/-! ## initkalloc: the boot allocator and the page loop -/

/-- The function `pgalloc`, with `kend` the address of `end[]` and `newend`
the global cursor: the page returned, the cursor afterwards, and the memory
after `memset(p, 0, PGSIZE)`. -/
def pgalloc (kend newend : Nat) (heap : Mem) : Nat × Nat × Mem :=
  (PGROUNDUP (if newend = 0 then kend else newend),
   ((if newend = 0 then kend else newend) + PGSIZE) % U64,
   memset heap (PGROUNDUP (if newend = 0 then kend else newend)) 0 PGSIZE)

/-- The page-filling loop of `initkalloc` for one processor,
`for (; k < n; k += PGSIZE, p = memnext(p, PGSIZE))`, whose body panics on the
end marker and else calls `kfree_pool(&kmems[c], p)`.  The state holds the pool
`kmems[c]` as `k`, the cursor `p`, and the counter `k` of the source as `off`.
One iteration per unit of fuel. -/
def page_loop (cfg : Config) (L : Layout) (mem : List Mbmem) (kinited : Bool) (n : Nat) :
    Nat → SlabState → Res SlabState
  | 0, _ => .fuel
  | fuel + 1, st =>
    if st.off < n then
      if st.p = END then .panic .initkalloc_e820next
      else
        match (kfree_pool cfg L mem kinited st.k st.heap st.p).1 with
        | .ok _ =>
          page_loop cfg L mem kinited n fuel
            { k := (kfree_pool cfg L mem kinited st.k st.heap st.p).2.1
              p := memnext L mem st.p PGSIZE
              off := (st.off + PGSIZE) % U64
              heap := (kfree_pool cfg L mem kinited st.k st.heap st.p).2.2 }
        | .panic e => .panic e
        | .fuel => .fuel
    else .ok st

/-- The chunk `[va, va + size)` lies, in physical addresses, inside one
recorded range. -/
def ChunkInRange (L : Layout) (mem : List Mbmem) (va size : Nat) : Prop :=
  ∃ e ∈ mem, e.base ≤ L.v2p va ∧ L.v2p va + size ≤ e.base + e.length

instance ChunkInRange.instDecidable (L : Layout) (mem : List Mbmem) (va size : Nat) :
    Decidable (ChunkInRange L mem va size) :=
  inferInstanceAs (Decidable (∃ e ∈ mem, e.base ≤ L.v2p va ∧ L.v2p va + size ≤ e.base + e.length))

/-- A map whose first range, six kilobytes at 1 MiB, ends in the middle of a
page; four pages follow at 2 MiB. -/
def oddMem : List Mbmem := [{ base := 0x100000, length := 0x1800 }, { base := 0x200000, length := 0x4000 }]

/-- The page loop is entered with an empty page pool, the cursor at the start
of `oddMem` and nothing counted yet. -/
def oddStart : SlabState :=
  { k := emptyPool
    p := 0xFFFFFF0000100000
    off := 0
    heap := zeroMem }

/-- The state the page loop leaves from `oddStart` with a quota of three
pages. -/
def oddOut : SlabState :=
  { k := { size := 4096, ninit := 0, freelist := { ptr := 0xFFFFFF0000200000, ver := 3 }, nfree := 3 }
    p := 0xFFFFFF0000201000
    off := 0x3000
    heap := Function.update (Function.update (Function.update zeroMem 0xFFFFFF0000100000 0)
      0xFFFFFF0000101000 0xFFFFFF0000100000) 0xFFFFFF0000200000 0xFFFFFF0000101000 }

/-! ## mfs: inode numbers and the node cache -/

/-- The values of the enumeration `mnode::types`, declared in `mnode.hh`, which
is not among the sources; they are parameters. -/
structure MnodeTypes where
  dir : Nat
  file : Nat
  dev : Nat
  sock : Nat
  deriving DecidableEq, Repr

/-- The four classes derived from `mnode`. -/
inductive Variant where
  | mdir
  | mfile
  | mdev
  | msock
  deriving DecidableEq, Repr

/-- A node object: which class it was constructed as, and its `mnode` fields. -/
structure NodeObj where
  variant : Variant
  node : Mnode
  deriving DecidableEq, Repr

/-- Modelled from the spec: the weak cache `mnode_cache` of `weakcache.hh`,
which is not among the sources: "identifier -> weakly-held object", "at most
one entry per identifier".  The entry is the object the cache points at, so
later stores to the object show in the cache. -/
abbrev Cache := Nat → Option NodeObj

/-- Modelled from the spec: `insert(key, value) -> bool (fails if key
present)`. -/
def Cache.insert (c : Cache) (key : Nat) (v : NodeObj) : Bool × Cache :=
  match c key with
  | some _ => (false, c)
  | none => (true, Function.update c key (some v))

/-- Modelled from the spec: `lookup(key) -> strong_ref | none`; the strong
reference is obtained by upgrading the weak one, which counts one more
reference on the object. -/
def Cache.lookup (c : Cache) (key : Nat) : Option NodeObj × Cache :=
  match c key with
  | none => (none, c)
  | some o =>
    (some { o with node := o.node.inc }, Function.update c key (some { o with node := o.node.inc }))

/-- The state of an `mfs`: its address and the per-processor counter
`next_inum_`, a `u64` for each processor id. -/
structure Mfs where
  self : Nat
  next_inum_ : Nat → Nat

/-- The `switch` of `mfs::alloc`: the class constructed for a type value, or
`none` for the `default` branch. -/
def variant_of (T : MnodeTypes) (type : Nat) : Option Variant :=
  if type = T.dir then some .mdir
  else if type = T.file then some .mfile
  else if type = T.dev then some .mdev
  else if type = T.sock then some .msock
  else none

/-- The inode number `mfs::alloc` computes on processor `cpu`:
`mnode::inumber(type, myid(), (*next_inum_)++).v_`, the counter read before its
increment.  The packing `inumber` is declared in `mnode.hh` and is a
parameter. -/
def mfs_inum (inumber : Nat → Nat → Nat → Nat) (cpu : Nat) (fs : Mfs) (type : Nat) : Nat :=
  inumber type cpu (fs.next_inum_ cpu)

/-- The post-increment of the counter of processor `cpu`. -/
def Mfs.bump (fs : Mfs) (cpu : Nat) : Mfs :=
  { fs with next_inum_ := Function.update fs.next_inum_ cpu ((fs.next_inum_ cpu + 1) % U64) }

/-- The function `mfs::alloc(type)` run on processor `cpu`; `refs` is the count
a new object starts with, held by the `sref` it is transferred to.  The link
unit of the `mlinkref` returned is not among the fields modelled. -/
def mfs_alloc (T : MnodeTypes) (inumber : Nat → Nat → Nat → Nat) (refs : Int) (cpu : Nat)
    (fs : Mfs) (cache : Cache) (type : Nat) : Res NodeObj × Mfs × Cache :=
  match variant_of T type with
  | none => (.panic .unknown_type, fs.bump cpu, cache)
  | some v =>
    if (cache.insert (mfs_inum inumber cpu fs type)
        { variant := v, node := Mnode.new fs.self (mfs_inum inumber cpu fs type) refs }).1 = false
    then (.panic .insert_failed, fs.bump cpu, cache)
    else
      (.ok { variant := v
             node := { (Mnode.new fs.self (mfs_inum inumber cpu fs type) refs).cache_pin true with
                       valid_ := true } },
       fs.bump cpu,
       Function.update cache (mfs_inum inumber cpu fs type)
         (some { variant := v
                 node := { (Mnode.new fs.self (mfs_inum inumber cpu fs type) refs).cache_pin true with
                           valid_ := true } }))

/-- The cache after each store of a call of `mfs::alloc` that gets past its
two panics, in program order: the insert of the new object, `cache_pin(true)`
on the object, `valid_ = true`. -/
def mfs_alloc_steps (T : MnodeTypes) (inumber : Nat → Nat → Nat → Nat) (refs : Int) (cpu : Nat)
    (fs : Mfs) (cache : Cache) (type : Nat) : List Cache :=
  match variant_of T type with
  | none => []
  | some v =>
    if (cache.insert (mfs_inum inumber cpu fs type)
        { variant := v, node := Mnode.new fs.self (mfs_inum inumber cpu fs type) refs }).1 = false
    then []
    else
      [Function.update cache (mfs_inum inumber cpu fs type)
         (some { variant := v, node := Mnode.new fs.self (mfs_inum inumber cpu fs type) refs }),
       Function.update cache (mfs_inum inumber cpu fs type)
         (some { variant := v
                 node := (Mnode.new fs.self (mfs_inum inumber cpu fs type) refs).cache_pin true }),
       Function.update cache (mfs_inum inumber cpu fs type)
         (some { variant := v
                 node := { (Mnode.new fs.self (mfs_inum inumber cpu fs type) refs).cache_pin true with
                           valid_ := true } })]

/-- The loop `while (!m->valid_)` of `mfs::get`: it ends at once on a valid
node; on a node that is not valid each round uses a unit of fuel, and in a
sequential run nothing ever sets the flag. -/
def spin_valid (m : NodeObj) : Nat → Res Unit
  | 0 => .fuel
  | fuel + 1 => if m.node.valid_ then .ok () else spin_valid m fuel

/-- The function `mfs::get(inum)`: the node found, or the panic for a node that
is not in the cache. -/
def mfs_get (fuel : Nat) (cache : Cache) (inum : Nat) : Res NodeObj × Cache :=
  match (cache.lookup inum).1 with
  | some m =>
    match spin_valid m fuel with
    | .ok _ => (.ok m, (cache.lookup inum).2)
    | .panic e => (.panic e, (cache.lookup inum).2)
    | .fuel => (.fuel, (cache.lookup inum).2)
  | none => (.panic .read_from_disk, (cache.lookup inum).2)

/-- A history of `mfs::alloc` calls, each given as the processor it runs on and
its type argument.  The log has, for every call made, the processor, the
sequence value and the inode number the call computed; a call that panics halts
the kernel, so it is the last one logged. -/
def allocSeq (T : MnodeTypes) (inumber : Nat → Nat → Nat → Nat) (refs : Int) :
    Mfs → Cache → List (Nat × Nat) → List (Nat × Nat × Nat)
  | _, _, [] => []
  | fs, cache, (cpu, type) :: rest =>
    (cpu, fs.next_inum_ cpu, mfs_inum inumber cpu fs type) ::
      (match (mfs_alloc T inumber refs cpu fs cache type).1 with
       | .ok _ =>
         allocSeq T inumber refs (mfs_alloc T inumber refs cpu fs cache type).2.1
           (mfs_alloc T inumber refs cpu fs cache type).2.2 rest
       | _ => [])

/-- Type values for examples: `dir = 1`, `file = 2`, `dev = 3`, `sock = 4`. -/
def demoTypes : MnodeTypes := { dir := 1, file := 2, dev := 3, sock := 4 }

/-- A packing for examples: the type in the top byte, the processor in the
next byte, the sequence number in the low 48 bits. -/
def demoInumber (type cpu seq : Nat) : Nat := type * 2 ^ 56 + cpu * 2 ^ 48 + seq

/-- A file system whose counters all stand at zero. -/
def demoFs : Mfs := { self := 0x1000, next_inum_ := fun _ => 0 }

/-- A node cache with no entry. -/
def emptyCache : Cache := fun _ => none

/-! ## Concurrent calls on one pool -/

/-- Where a processor stands inside a call of `kmem::alloc` or `kmem::free`,
with the values of its local variables.  Each constructor but `idle` is the
point before one access to shared memory:
`a_start` before `freelist.load()` in `alloc`; `a_loaded` before the read of
`r->next`; `a_read` before the compare-exchange; `a_popped` before the re-check
of `r->next`; `a_counted` before `nfree--` and the return of `r`;
`f_start` before `freelist.load()` in `free(r)`; `f_loaded` before the store
`r->next = headval.ptr()`; `f_stored` before the compare-exchange; `f_pushed`
before `nfree++`. -/
inductive PC where
  | idle
  | a_start
  | a_loaded (headval : VPtr)
  | a_read (headval : VPtr) (nxt : Nat)
  | a_popped (r nxt : Nat)
  | a_counted (r : Nat)
  | f_start (r : Nat)
  | f_loaded (r : Nat) (headval : VPtr)
  | f_stored (r : Nat) (headval : VPtr)
  | f_pushed (r : Nat)
  deriving DecidableEq, Repr

/-- The run a processor has in its hands at a point of a call: the run it
popped and has not yet returned, or the run it was given and has not yet
pushed. -/
def PC.held : PC → Option Nat
  | .a_popped r _ => some r
  | .a_counted r => some r
  | .f_start r => some r
  | .f_loaded r _ => some r
  | .f_stored r _ => some r
  | _ => none

/-- One pool shared by all processors: the fields of the pool, the memory,
the point each processor stands at, and whether the kernel has panicked.
`out` is a record, not a variable of the code: the runs that `alloc` has
returned and that have not been passed to `free` since. -/
structure CState where
  freelist : VPtr
  nfree : Nat
  heap : Mem
  pc : Nat → PC
  out : List Nat
  panicked : Bool

/-- What can happen next: processor `t` calls `alloc`; processor `t` calls
`free(r)`; processor `t` makes the next access to shared memory of the call it
is in; the owner of an allocated run `r` writes `v` over its first word. -/
inductive Label where
  | call_alloc (t : Nat)
  | call_free (t r : Nat)
  | run (t : Nat)
  | scribble (r v : Nat)
  deriving DecidableEq, Repr

/-- Processor `t` moves to the point `c`. -/
def CState.goto (s : CState) (t : Nat) (c : PC) : CState :=
  { s with pc := Function.update s.pc t c }

/-- The next access to shared memory of processor `t`, following the loops of
`kmem::alloc` and `kmem::free` statement by statement. -/
def CState.runThread (s : CState) (t : Nat) : CState :=
  match s.pc t with
  | .idle => s
  | .a_start =>
    if s.freelist.ptr = 0 then s.goto t .idle else s.goto t (.a_loaded s.freelist)
  | .a_loaded hv => s.goto t (.a_read hv (s.heap hv.ptr))
  | .a_read hv nxt =>
    if (s.freelist.compare_exchange hv nxt).1 then
      { s with freelist := (s.freelist.compare_exchange hv nxt).2
               pc := Function.update s.pc t (.a_popped hv.ptr nxt) }
    else s.goto t .a_start
  | .a_popped r nxt =>
    if s.heap r ≠ nxt then { s with panicked := true } else s.goto t (.a_counted r)
  | .a_counted r =>
    { s with nfree := (s.nfree + U64 - 1) % U64
             out := r :: s.out
             pc := Function.update s.pc t .idle }
  | .f_start r => s.goto t (.f_loaded r s.freelist)
  | .f_loaded r hv =>
    { s with heap := Function.update s.heap r hv.ptr
             pc := Function.update s.pc t (.f_stored r hv) }
  | .f_stored r hv =>
    if (s.freelist.compare_exchange hv r).1 then
      { s with freelist := (s.freelist.compare_exchange hv r).2
               pc := Function.update s.pc t (.f_pushed r) }
    else s.goto t (.f_start r)
  | .f_pushed _ =>
    { s with nfree := (s.nfree + 1) % U64
             pc := Function.update s.pc t .idle }

/-- The state after one event.  After a panic nothing moves. -/
def CState.step (s : CState) (lab : Label) : CState :=
  if s.panicked then s
  else
    match lab with
    | .call_alloc t => s.goto t .a_start
    | .call_free t r => { s with out := s.out.erase r, pc := Function.update s.pc t (.f_start r) }
    | .run t => s.runThread t
    | .scribble r v => { s with heap := Function.update s.heap r v }

/-- The state after a schedule of events. -/
def CState.exec (s : CState) (sched : List Label) : CState :=
  sched.foldl CState.step s

/-- What the callers owe the pool.  A call starts on a processor that is in no
call.  `free(r)` is given a run that the caller alone has: non-null, not on
the free list, and in the hands of no call in progress.  Only a run that has
been allocated and not freed is written by its owner. -/
def LabelOk (s : CState) : Label → Prop
  | .call_alloc t => s.pc t = .idle
  | .call_free t r =>
    s.pc t = .idle ∧ r ≠ 0 ∧ (∀ l, Chain s.heap s.freelist.ptr l → r ∉ l) ∧
      ∀ u, (s.pc u).held ≠ some r
  | .run _ => True
  | .scribble r _ => r ∈ s.out

/-- Every event of the schedule meets `LabelOk` in the state it happens in. -/
def SchedOk : CState → List Label → Prop
  | _, [] => True
  | s, lab :: rest => LabelOk s lab ∧ SchedOk (s.step lab) rest

/-- The run that the event hands to a caller of `alloc`: the event is the last
step, `nfree--` and `return r`, of a call of `alloc` on some processor. -/
def handsOut (s : CState) : Label → Option Nat
  | .run t =>
    if s.panicked then none
    else
      match s.pc t with
      | .a_counted r => some r
      | _ => none
  | _ => none

/-- A pool at rest: no processor is in a call, nothing is allocated, and the
free list is the null-terminated chain `l`. -/
def AtRest (s : CState) (l : List Nat) : Prop :=
  Chain s.heap s.freelist.ptr l ∧ (∀ t, s.pc t = .idle) ∧ s.out = [] ∧ s.panicked = false

/-- What a processor at a point of a call knows, given the free list `l`. -/
def ThreadOk (head : VPtr) (heap : Mem) (l out : List Nat) : PC → Prop
  | .idle => True
  | .a_start => True
  | .a_loaded hv => hv.ptr ≠ 0 ∧ hv.ver ≤ head.ver ∧ (hv.ver = head.ver → hv = head)
  | .a_read hv nxt =>
    hv.ptr ≠ 0 ∧ hv.ver ≤ head.ver ∧ (hv.ver = head.ver → hv = head ∧ heap hv.ptr = nxt)
  | .a_popped r nxt => r ≠ 0 ∧ r ∉ l ∧ r ∉ out ∧ heap r = nxt
  | .a_counted r => r ≠ 0 ∧ r ∉ l ∧ r ∉ out
  | .f_start r => r ≠ 0 ∧ r ∉ l ∧ r ∉ out
  | .f_loaded r _ => r ≠ 0 ∧ r ∉ l ∧ r ∉ out
  | .f_stored r hv => r ≠ 0 ∧ r ∉ l ∧ r ∉ out ∧ heap r = hv.ptr
  | .f_pushed _ => True

/-- The invariant of the shared pool with free list `l`: the list is the chain
from the head; the allocated runs are pairwise distinct and not on the list;
every processor knows what `ThreadOk` says; no two processors have the same run
in their hands; the kernel has not panicked. -/
def CInv (s : CState) (l : List Nat) : Prop :=
  Chain s.heap s.freelist.ptr l ∧ s.out.Nodup ∧ (∀ r ∈ s.out, r ∉ l) ∧
  (∀ t, ThreadOk s.freelist s.heap l s.out (s.pc t)) ∧
  (∀ t u r, t ≠ u → (s.pc t).held = some r → (s.pc u).held ≠ some r) ∧
  s.panicked = false

/-- A pool at rest whose free list is the one page at `0x1000`. -/
def restPool : CState :=
  { freelist := { ptr := 0x1000, ver := 0 }
    nfree := 1
    heap := zeroMem
    pc := fun _ => .idle
    out := []
    panicked := false }

/-! # Theorems -/

/-! ## Lemmas on chains -/

theorem alloc_loop_succ (fuel : Nat) (m : Kmem) (heap : Mem) :
    Kmem.alloc_loop (fuel + 1) m heap = some (m.alloc heap) := by
  simp only [Kmem.alloc_loop, Kmem.alloc, VPtr.compare_exchange]
  split <;> simp

theorem free_loop_succ (fuel : Nat) (m : Kmem) (heap : Mem) (r : Nat) :
    Kmem.free_loop (fuel + 1) m heap r = some (m.free heap r) := by
  simp [Kmem.free_loop, Kmem.free, VPtr.compare_exchange]

theorem chain_nil (heap : Mem) (p : Nat) : Chain heap p [] ↔ p = 0 := Iff.rfl

theorem chain_cons (heap : Mem) (p r : Nat) (rs : List Nat) :
    Chain heap p (r :: rs) ↔ p = r ∧ r ≠ 0 ∧ Chain heap (heap r) rs := Iff.rfl

theorem chain_unique (heap : Mem) : ∀ (l1 l2 : List Nat) (p : Nat),
    Chain heap p l1 → Chain heap p l2 → l1 = l2
  | [], [], _, _, _ => rfl
  | [], r :: rs, p, h1, h2 => by
    simp only [Chain] at h1 h2
    omega
  | r :: rs, [], p, h1, h2 => by
    simp only [Chain] at h1 h2
    omega
  | r1 :: rs1, r2 :: rs2, p, h1, h2 => by
    simp only [Chain] at h1 h2
    obtain ⟨e1, _, c1⟩ := h1
    obtain ⟨e2, _, c2⟩ := h2
    have e : r1 = r2 := by omega
    subst e
    rw [chain_unique heap rs1 rs2 (heap r1) c1 c2]

theorem chain_not_zero (heap : Mem) : ∀ (l : List Nat) (p : Nat), Chain heap p l → 0 ∉ l
  | [], _, _ => by simp
  | r :: rs, p, h => by
    simp only [Chain] at h
    have := chain_not_zero heap rs (heap r) h.2.2
    simp only [List.mem_cons, not_or]
    exact ⟨fun e => h.2.1 e.symm, this⟩

/-- A run on a chain starts a chain of its own that is no longer. -/
theorem chain_from_mem (heap : Mem) : ∀ (l : List Nat) (p x : Nat), Chain heap p l → x ∈ l →
    ∃ l2, Chain heap x l2 ∧ l2.length ≤ l.length
  | [], _, _, _, hx => by simp at hx
  | r :: rs, p, x, h, hx => by
    simp only [Chain] at h
    rcases List.mem_cons.1 hx with e | hmem
    · subst e
      exact ⟨x :: rs, (chain_cons heap x x rs).2 ⟨rfl, h.2.1, h.2.2⟩, le_refl _⟩
    · obtain ⟨l2, c2, hl⟩ := chain_from_mem heap rs (heap r) x h.2.2 hmem
      exact ⟨l2, c2, by simp only [List.length_cons]; omega⟩

theorem chain_nodup (heap : Mem) : ∀ (l : List Nat) (p : Nat), Chain heap p l → l.Nodup
  | [], _, _ => List.nodup_nil
  | r :: rs, p, h => by
    have h0 := h
    simp only [Chain] at h
    refine List.nodup_cons.2 ⟨?_, chain_nodup heap rs (heap r) h.2.2⟩
    intro hmem
    obtain ⟨l2, c2, hl⟩ := chain_from_mem heap rs (heap r) r h.2.2 hmem
    have c1 : Chain heap r (r :: rs) := (chain_cons heap r r rs).2 ⟨rfl, h.2.1, h.2.2⟩
    have := chain_unique heap _ _ r c1 c2
    rw [← this] at hl
    simp at hl

/-- A chain is kept by every memory that agrees with the old one on its runs. -/
theorem chain_congr (h1 h2 : Mem) : ∀ (l : List Nat) (p : Nat),
    (∀ x ∈ l, h1 x = h2 x) → Chain h1 p l → Chain h2 p l
  | [], _, _, c => c
  | r :: rs, p, hag, c => by
    simp only [Chain] at c ⊢
    refine ⟨c.1, c.2.1, ?_⟩
    rw [← hag r (List.mem_cons_self _ _)]
    exact chain_congr h1 h2 rs (h1 r) (fun x hx => hag x (List.mem_cons_of_mem _ hx)) c.2.2

/-- A duplicate-free list of non-null 64-bit addresses has fewer than `2 ^ 64`
entries. -/
theorem nodup_length_lt (l : List Nat) (hn : l.Nodup) (h0 : 0 ∉ l) (hb : ∀ r ∈ l, r < U64) :
    l.length < U64 := by
  have hsub : l.toFinset ⊆ (Finset.range U64).erase 0 := by
    intro x hx
    rw [List.mem_toFinset] at hx
    rw [Finset.mem_erase, Finset.mem_range]
    exact ⟨fun e => h0 (e ▸ hx), hb x hx⟩
  have hc := Finset.card_le_card hsub
  rw [List.toFinset_card_of_nodup hn, Finset.card_erase_of_mem (by simp [U64]),
    Finset.card_range] at hc
  have : 0 < U64 := by simp [U64]
  omega

theorem u64_dec (n : Nat) (h0 : 0 < n) (hn : n < U64) : (n + U64 - 1) % U64 = n - 1 := by
  simp only [U64] at hn ⊢
  omega

theorem u64_inc (n : Nat) (hn : n + 1 < U64) : (n + 1) % U64 = n + 1 :=
  Nat.mod_eq_of_lt hn

theorem u64_dec_inc (n : Nat) (hn : n < U64) : ((n + U64 - 1) % U64 + 1) % U64 = n := by
  simp only [U64] at hn ⊢
  omega

theorem alloc_null (m : Kmem) (heap : Mem) (h : m.freelist.ptr = 0) :
    m.alloc heap = (.ok 0, m) := by
  simp only [Kmem.alloc, h, if_true]

theorem alloc_run (m : Kmem) (heap : Mem) (h : m.freelist.ptr ≠ 0) :
    m.alloc heap = (.ok m.freelist.ptr,
      { m with freelist := { ptr := heap m.freelist.ptr, ver := m.freelist.ver + 1 }, nfree := (m.nfree + U64 - 1) % U64 }) := by
  simp only [Kmem.alloc, h, if_false, ne_eq, not_true_eq_false]

/-- If one chain from `p` avoids `r`, every chain from `p` does. -/
theorem not_on_chain (heap : Mem) (p r : Nat) (l0 : List Nat) (c0 : Chain heap p l0)
    (h0 : r ∉ l0) : ∀ l, Chain heap p l → r ∉ l := by
  intro l c
  rw [chain_unique heap l l0 p c c0]
  exact h0

theorem poolOk_alloc (m : Kmem) (heap : Mem) (l : List Nat) (h : PoolOk m heap l) :
    PoolOk (m.alloc heap).2 heap l.tail := by
  obtain ⟨hc, hlen, hb⟩ := h
  cases l with
  | nil =>
    have h0 : m.freelist.ptr = 0 := hc
    simp only [Kmem.alloc, h0, if_true, List.tail_nil]
    exact ⟨hc, hlen, hb⟩
  | cons r rs =>
    obtain ⟨e, hr, hrest⟩ := (chain_cons heap _ r rs).1 hc
    have hlt := nodup_length_lt (r :: rs) (chain_nodup heap _ _ hc) (chain_not_zero heap _ _ hc) hb
    have hne : m.freelist.ptr ≠ 0 := by rw [e]; exact hr
    simp only [Kmem.alloc, hne, if_false, ne_eq, not_true_eq_false, List.tail_cons]
    refine ⟨by rw [e]; exact hrest, ?_, fun x hx => hb x (List.mem_cons_of_mem _ hx)⟩
    simp only [List.length_cons] at hlen hlt
    show rs.length = (m.nfree + U64 - 1) % U64
    rw [← hlen, u64_dec _ (by omega) hlt]
    rfl

theorem poolOk_free (m : Kmem) (heap : Mem) (l : List Nat) (r : Nat) (h : PoolOk m heap l)
    (hr0 : r ≠ 0) (hr64 : r < U64) (hnot : r ∉ l) :
    PoolOk (m.free heap r).1 (m.free heap r).2 (r :: l) := by
  obtain ⟨hc, hlen, hb⟩ := h
  have hb2 : ∀ x ∈ r :: l, x < U64 := by
    intro x hx
    rcases List.mem_cons.1 hx with e | hx
    · rw [e]; exact hr64
    · exact hb x hx
  have hc2 : Chain (Function.update heap r m.freelist.ptr) r (r :: l) := by
    refine (chain_cons _ r r l).2 ⟨rfl, hr0, ?_⟩
    rw [Function.update_same]
    refine chain_congr heap _ l _ (fun x hx => ?_) hc
    rw [Function.update_noteq]
    intro e
    exact hnot (e ▸ hx)
  have hlt := nodup_length_lt (r :: l) (chain_nodup _ _ _ hc2) (chain_not_zero _ _ _ hc2) hb2
  refine ⟨hc2, ?_, hb2⟩
  simp only [List.length_cons] at hlt ⊢
  show l.length + 1 = (m.nfree + 1) % U64
  rw [← hlen, Nat.mod_eq_of_lt hlt]

theorem poolOk_runOps : ∀ (ops : List Op) (m : Kmem) (heap : Mem) (l : List Nat),
    PoolOk m heap l → OpsOk (m, heap) ops →
    ∃ l2, PoolOk (runOps (m, heap) ops).1 (runOps (m, heap) ops).2 l2
  | [], m, heap, l, h, _ => ⟨l, h⟩
  | .alloc :: ops, m, heap, l, h, hops =>
    poolOk_runOps ops (m.alloc heap).2 heap l.tail (poolOk_alloc m heap l h) hops
  | .free r :: ops, m, heap, l, h, hops => by
    obtain ⟨⟨hr0, hr64, hnot⟩, hrest⟩ := hops
    exact poolOk_runOps ops (m.free heap r).1 (m.free heap r).2 (r :: l)
      (poolOk_free m heap l r h hr0 hr64 (hnot l h.1)) hrest

theorem freeAll_chain : ∀ (rs : List Nat) (m : Kmem) (heap : Mem) (l : List Nat),
    Chain heap m.freelist.ptr l → rs.Nodup → 0 ∉ rs → (∀ r ∈ rs, r ∉ l) →
    Chain (freeAll (m, heap) rs).2 (freeAll (m, heap) rs).1.freelist.ptr (rs.reverse ++ l)
  | [], m, heap, l, hc, _, _, _ => by simpa [freeAll] using hc
  | r :: rs, m, heap, l, hc, hnd, h0, hdis => by
    obtain ⟨hr, hnd2⟩ := List.nodup_cons.1 hnd
    have hc2 : Chain (m.free heap r).2 (m.free heap r).1.freelist.ptr (r :: l) := by
      refine (chain_cons _ r r l).2 ⟨rfl, fun e => h0 (e ▸ List.mem_cons_self _ _), ?_⟩
      show Chain _ (Function.update heap r m.freelist.ptr r) l
      rw [Function.update_same]
      refine chain_congr heap _ l _ (fun x hx => ?_) hc
      show heap x = Function.update heap r m.freelist.ptr x
      rw [Function.update_noteq]
      intro e
      exact hdis r (List.mem_cons_self _ _) (e ▸ hx)
    have := freeAll_chain rs (m.free heap r).1 (m.free heap r).2 (r :: l) hc2 hnd2
      (fun h => h0 (List.mem_cons_of_mem _ h))
      (fun x hx hmem => by
        rcases List.mem_cons.1 hmem with e | hmem
        · exact hr (e ▸ hx)
        · exact hdis x (List.mem_cons_of_mem _ hx) hmem)
    simpa [freeAll] using this

theorem allocN_chain (heap : Mem) : ∀ (l : List Nat) (m : Kmem), Chain heap m.freelist.ptr l →
    (allocN l.length m heap).1 = l.map Res.ok ∧ (allocN l.length m heap).2.freelist.ptr = 0
  | [], m, hc => ⟨rfl, hc⟩
  | r :: rs, m, hc => by
    obtain ⟨e, hr, hrest⟩ := (chain_cons heap _ r rs).1 hc
    have hne : m.freelist.ptr ≠ 0 := by rw [e]; exact hr
    have ha1 : (m.alloc heap).1 = Res.ok r := by
      rw [alloc_run m heap hne, e]
    have ha2 : (m.alloc heap).2.freelist.ptr = heap r := by
      rw [alloc_run m heap hne, e]
    obtain ⟨h1, h2⟩ := allocN_chain heap rs (m.alloc heap).2 (by rw [ha2]; exact hrest)
    simp only [List.length_cons, allocN, List.map_cons]
    refine ⟨?_, h2⟩
    rw [h1, ha1]

/-! ## The claims on kmem -/

/-- C1: in a pool whose free list is a null-terminated chain of `nfree` runs,
after any finite sequence of `kmem::alloc` and `kmem::free` calls, each free
being given a run that is not on the list at that moment, `nfree` is again the
number of runs on the chain from the head. -/
theorem kmem_nfree_counts_reachable (m : Kmem) (heap : Mem) (l : List Nat) (ops : List Op)
    (hchain : Chain heap m.freelist.ptr l) (hlen : l.length = m.nfree)
    (h64 : ∀ r ∈ l, r < U64) (hops : OpsOk (m, heap) ops) :
    ∃ l2, Chain (runOps (m, heap) ops).2 (runOps (m, heap) ops).1.freelist.ptr l2 ∧
      l2.length = (runOps (m, heap) ops).1.nfree := by
  obtain ⟨l2, h1, h2, _⟩ := poolOk_runOps ops m heap l ⟨hchain, hlen, h64⟩ hops
  exact ⟨l2, h1, h2⟩

/-- Witness for C1: two pages are freed into the empty pool, one is allocated
and freed again. -/
theorem kmem_nfree_counts_reachable_witness :
    ∃ l2, Chain (runOps (emptyPool, zeroMem) [.free 4096, .free 8192, .alloc, .free 8192]).2
        (runOps (emptyPool, zeroMem) [.free 4096, .free 8192, .alloc, .free 8192]).1.freelist.ptr l2 ∧
      l2.length = (runOps (emptyPool, zeroMem) [.free 4096, .free 8192, .alloc, .free 8192]).1.nfree :=
  kmem_nfree_counts_reachable emptyPool zeroMem [] [.free 4096, .free 8192, .alloc, .free 8192]
    (by decide) (by decide) (by simp)
    ⟨⟨by decide, by decide, not_on_chain _ _ _ [] (by decide) (by decide)⟩,
     ⟨by decide, by decide, not_on_chain _ _ _ [4096] (by decide) (by decide)⟩,
     ⟨by decide, by decide, not_on_chain _ _ _ [4096] (by decide) (by decide)⟩, trivial⟩

/-- C2: on a pool with a non-empty free list, `kmem::alloc` returns the head
run `r`, and `kmem::free(r)` right after it restores the free count, makes `r`
the head again, and leaves every `next` field, hence the whole chain beneath
`r`, as it was.  Only the tag of the head has moved on, by two. -/
theorem alloc_then_free_restores (m : Kmem) (heap : Mem) (hne : m.freelist.ptr ≠ 0)
    (hn : m.nfree < U64) :
    (m.alloc heap).1 = .ok m.freelist.ptr ∧
    ((m.alloc heap).2.free heap m.freelist.ptr).1.nfree = m.nfree ∧
    ((m.alloc heap).2.free heap m.freelist.ptr).1.freelist.ptr = m.freelist.ptr ∧
    ((m.alloc heap).2.free heap m.freelist.ptr).1.freelist.ver = m.freelist.ver + 2 ∧
    ((m.alloc heap).2.free heap m.freelist.ptr).2 = heap ∧
    (∀ l, Chain heap m.freelist.ptr l →
      Chain ((m.alloc heap).2.free heap m.freelist.ptr).2
        ((m.alloc heap).2.free heap m.freelist.ptr).1.freelist.ptr l) := by
  have hheap : Function.update heap m.freelist.ptr (heap m.freelist.ptr) = heap :=
    Function.update_eq_self _ _
  have hmod : ((m.nfree + U64 - 1) % U64 + 1) % U64 = m.nfree := u64_dec_inc _ hn
  simp only [Kmem.alloc, hne, if_false, ne_eq, not_true_eq_false, Kmem.free, hheap, hmod]
  exact ⟨trivial, trivial, trivial, trivial, trivial, fun l hl => hl⟩

/-- Witness for C2: a pool holding the pages 8192 and 4096. -/
theorem alloc_then_free_restores_witness :
    (((freeAll (emptyPool, zeroMem) [4096, 8192]).1.alloc
        (freeAll (emptyPool, zeroMem) [4096, 8192]).2).2.free
      (freeAll (emptyPool, zeroMem) [4096, 8192]).2 8192).1.nfree = 2 :=
  (alloc_then_free_restores (freeAll (emptyPool, zeroMem) [4096, 8192]).1
    (freeAll (emptyPool, zeroMem) [4096, 8192]).2 (by decide) (by decide)).2.1

/-- C3: a pool filled by freeing `n` distinct runs into an empty pool hands
them all out again: `n` calls of `kmem::alloc` return the freed runs, last
freed first, each non-null and no two equal; the call after them returns
`nullptr` without a panic and leaves the pool as it was. -/
theorem alloc_exhausts_pool (m : Kmem) (heap : Mem) (rs : List Nat)
    (hempty : m.freelist.ptr = 0) (hnd : rs.Nodup) (h0 : 0 ∉ rs) :
    (allocN rs.length (freeAll (m, heap) rs).1 (freeAll (m, heap) rs).2).1
        = rs.reverse.map Res.ok ∧
    rs.reverse.Nodup ∧ (∀ r ∈ rs.reverse, r ≠ 0) ∧ rs.reverse.Perm rs ∧
    (allocN rs.length (freeAll (m, heap) rs).1 (freeAll (m, heap) rs).2).2.alloc
        (freeAll (m, heap) rs).2
      = (.ok 0, (allocN rs.length (freeAll (m, heap) rs).1 (freeAll (m, heap) rs).2).2) := by
  have hc := freeAll_chain rs m heap [] hempty hnd h0 (fun _ _ => List.not_mem_nil _)
  rw [List.append_nil] at hc
  have ha := allocN_chain (freeAll (m, heap) rs).2 rs.reverse (freeAll (m, heap) rs).1 hc
  rw [List.length_reverse] at ha
  refine ⟨ha.1, List.nodup_reverse.2 hnd, ?_, List.reverse_perm rs, ?_⟩
  · intro r hr e
    exact h0 (e ▸ List.mem_reverse.1 hr)
  · simp only [Kmem.alloc, ha.2, if_true]

/-- Witness for C3: a pool preallocated with two objects serves two
allocations and answers the third with `nullptr`. -/
theorem alloc_exhausts_pool_witness :
    (allocN 3 (freeAll (emptyPool, zeroMem) [4096, 8192]).1
      (freeAll (emptyPool, zeroMem) [4096, 8192]).2).1 = [.ok 8192, .ok 4096, .ok 0] := by
  have h := alloc_exhausts_pool emptyPool zeroMem [4096, 8192] (by decide) (by decide) (by decide)
  simp only [allocN] at h ⊢
  rw [h.2.2.2.2]
  have h1 := h.1
  simp only [List.length_cons, List.length_nil, allocN, List.reverse_cons, List.reverse_nil,
    List.nil_append, List.cons_append, List.map_cons, List.map_nil] at h1
  simpa using h1

/-! ## kalloc_pool -/

theorem memset_outside (heap : Mem) (v c n x : Nat) (h : x + 8 ≤ v ∨ v + n ≤ x) :
    memset heap v c n x = heap x := by
  simp only [memset]
  rw [if_neg]
  omega

theorem kalloc_pool_loop_empty (cfg : Config) (s : Nat) (heap : Mem) :
    ∀ (n i cn : Nat) (km : Pools),
    (∀ j, i ≤ j → j < i + n → (km (((j + s) % 2 ^ 32) % cfg.NCPU)).freelist.ptr = 0) →
    (kalloc_pool_loop cfg s heap n i cn km).1 = .ok 0 ∧
    (kalloc_pool_loop cfg s heap n i cn km).2.2 = km
  | 0, _, _, _, _ => ⟨rfl, rfl⟩
  | n + 1, i, cn, km, h => by
    have h0 := h i (le_refl _) (by omega)
    have ha := alloc_null (km (((i + s) % 2 ^ 32) % cfg.NCPU)) heap h0
    have hk : Function.update km (((i + s) % 2 ^ 32) % cfg.NCPU)
        (km (((i + s) % 2 ^ 32) % cfg.NCPU)) = km := Function.update_eq_self _ _
    simp only [kalloc_pool_loop, ha, if_true, hk]
    exact kalloc_pool_loop_empty cfg s heap n (i + 1) _ km
      (fun j h1 h2 => h j (by omega) (by omega))

theorem kalloc_pool_loop_first (cfg : Config) (s : Nat) (heap : Mem) :
    ∀ (n i0 cn0 : Nat) (km : Pools) (i : Nat), i0 ≤ i → i < i0 + n →
    (∀ j, i0 ≤ j → j < i → (km (((j + s) % 2 ^ 32) % cfg.NCPU)).freelist.ptr = 0) →
    (km (((i + s) % 2 ^ 32) % cfg.NCPU)).freelist.ptr ≠ 0 →
    kalloc_pool_loop cfg s heap n i0 cn0 km =
      (.ok (km (((i + s) % 2 ^ 32) % cfg.NCPU)).freelist.ptr, ((i + s) % 2 ^ 32) % cfg.NCPU,
        Function.update km (((i + s) % 2 ^ 32) % cfg.NCPU)
          ((km (((i + s) % 2 ^ 32) % cfg.NCPU)).alloc heap).2)
  | 0, i0, _, _, i, h1, h2, _, _ => by omega
  | n + 1, i0, cn0, km, i, h1, h2, hemp, hne => by
    rcases Nat.eq_or_lt_of_le h1 with e | hlt
    · subst e
      have ha := alloc_run (km (((i0 + s) % 2 ^ 32) % cfg.NCPU)) heap hne
      have hne2 : (Res.ok (km (((i0 + s) % 2 ^ 32) % cfg.NCPU)).freelist.ptr : Res Nat) ≠ .ok 0 := by
        intro e
        exact hne (Res.ok.inj e)
      simp only [kalloc_pool_loop]
      rw [ha]
      simp only [hne2, if_false]
    · have h0 := hemp i0 (le_refl _) hlt
      have ha := alloc_null (km (((i0 + s) % 2 ^ 32) % cfg.NCPU)) heap h0
      have hk : Function.update km (((i0 + s) % 2 ^ 32) % cfg.NCPU)
          (km (((i0 + s) % 2 ^ 32) % cfg.NCPU)) = km := Function.update_eq_self _ _
      simp only [kalloc_pool_loop, ha, if_true, hk]
      exact kalloc_pool_loop_first cfg s heap n (i0 + 1) _ km i (by omega) (by omega)
        (fun j h3 h4 => hemp j (by omega) h4) hne

theorem scan_index (N s i : Nat) (hs : s < N) (hN : N ≤ 2 ^ 31) (hi : i < N) :
    ((i + s) % 2 ^ 32) % N = (s + i) % N := by
  have h : (i + s) % 2 ^ 32 = i + s := Nat.mod_eq_of_lt (by omega)
  rw [h, Nat.add_comm]

/-- What `kalloc_pool` does when the `i`-th pool of the scan is the first
non-empty one. -/
theorem kalloc_pool_first (cfg : Config) (s : Nat) (km : Pools) (heap : Mem)
    (hs : s < cfg.NCPU) (hN : cfg.NCPU ≤ 2 ^ 31) (i : Nat) (hi : i < cfg.NCPU)
    (hne : (km ((s + i) % cfg.NCPU)).freelist.ptr ≠ 0)
    (hemp : ∀ j, j < i → (km ((s + j) % cfg.NCPU)).freelist.ptr = 0) :
    (kalloc_pool cfg s km heap).1 = .ok (km ((s + i) % cfg.NCPU)).freelist.ptr ∧
    (kalloc_pool cfg s km heap).2.1 =
      Function.update km ((s + i) % cfg.NCPU) ((km ((s + i) % cfg.NCPU)).alloc heap).2 ∧
    (kalloc_pool cfg s km heap).2.2 =
      (if cfg.ALLOC_MEMSET ∧ (km ((s + i) % cfg.NCPU)).size ≤ 16384 then
        memset heap (km ((s + i) % cfg.NCPU)).freelist.ptr 2 (km ((s + i) % cfg.NCPU)).size
      else heap) := by
  have hidx := scan_index cfg.NCPU s i hs hN hi
  have hl := kalloc_pool_loop_first cfg s heap cfg.NCPU 0 0 km i (Nat.zero_le _) (by omega)
    (fun j _ hj => by
      rw [scan_index cfg.NCPU s j hs hN (by omega)]
      exact hemp j hj)
    (by rw [hidx]; exact hne)
  rw [hidx] at hl
  have hsize : ((km ((s + i) % cfg.NCPU)).alloc heap).2.size = (km ((s + i) % cfg.NCPU)).size := by
    rw [alloc_run _ heap hne]
  simp only [kalloc_pool, hl, hne, if_false, Function.update_same, hsize]
  split <;> exact ⟨rfl, rfl, rfl⟩

theorem kalloc_pool_all_empty (cfg : Config) (s : Nat) (km : Pools) (heap : Mem)
    (hemp : ∀ c, c < cfg.NCPU → (km c).freelist.ptr = 0) :
    kalloc_pool cfg s km heap = (.ok 0, km, heap) := by
  rcases Nat.eq_zero_or_pos cfg.NCPU with h0 | hpos
  · simp only [kalloc_pool, h0, kalloc_pool_loop, if_true]
  · have hl := kalloc_pool_loop_empty cfg s heap cfg.NCPU 0 0 km
      (fun j _ _ => hemp _ (Nat.mod_lt _ hpos))
    have h1 := hl.1
    have h2 := hl.2
    simp only [kalloc_pool, h1, h2, if_true]

/-- C4: `kalloc_pool` on processor `s` scans the pools `(s + i) mod NCPU` for
`i = 0, 1, ...`, the local pool first.  It returns the head run of the first
non-empty pool of that scan, pops it from that pool (the head moves to the
run's `next`, `nfree` is decremented as a `u64`, which is `nfree - 1` for a
positive count) and leaves every other pool as it was; memory outside the
block handed out is untouched.  It returns `0` exactly when all `NCPU` pools
are empty, and then changes no pool and no memory. -/
theorem kalloc_pool_round_robin (cfg : Config) (s : Nat) (km : Pools) (heap : Mem)
    (hs : s < cfg.NCPU) (hN : cfg.NCPU ≤ 2 ^ 31) :
    (∀ i, i < cfg.NCPU → (km ((s + i) % cfg.NCPU)).freelist.ptr ≠ 0 →
      (∀ j, j < i → (km ((s + j) % cfg.NCPU)).freelist.ptr = 0) →
      (kalloc_pool cfg s km heap).1 = .ok (km ((s + i) % cfg.NCPU)).freelist.ptr ∧
      ((kalloc_pool cfg s km heap).2.1 ((s + i) % cfg.NCPU)).freelist.ptr
        = heap (km ((s + i) % cfg.NCPU)).freelist.ptr ∧
      ((kalloc_pool cfg s km heap).2.1 ((s + i) % cfg.NCPU)).nfree
        = ((km ((s + i) % cfg.NCPU)).nfree + U64 - 1) % U64 ∧
      (0 < (km ((s + i) % cfg.NCPU)).nfree → (km ((s + i) % cfg.NCPU)).nfree < U64 →
        ((kalloc_pool cfg s km heap).2.1 ((s + i) % cfg.NCPU)).nfree
          = (km ((s + i) % cfg.NCPU)).nfree - 1) ∧
      (∀ c, c ≠ (s + i) % cfg.NCPU → (kalloc_pool cfg s km heap).2.1 c = km c) ∧
      (∀ a, (a + 8 ≤ (km ((s + i) % cfg.NCPU)).freelist.ptr ∨
          (km ((s + i) % cfg.NCPU)).freelist.ptr + (km ((s + i) % cfg.NCPU)).size ≤ a) →
        (kalloc_pool cfg s km heap).2.2 a = heap a)) ∧
    ((kalloc_pool cfg s km heap).1 = .ok 0 ↔ ∀ c, c < cfg.NCPU → (km c).freelist.ptr = 0) ∧
    ((kalloc_pool cfg s km heap).1 = .ok 0 →
      (kalloc_pool cfg s km heap).2.1 = km ∧ (kalloc_pool cfg s km heap).2.2 = heap) := by
  have hA : ∀ i, i < cfg.NCPU → (km ((s + i) % cfg.NCPU)).freelist.ptr ≠ 0 →
      (∀ j, j < i → (km ((s + j) % cfg.NCPU)).freelist.ptr = 0) →
      (kalloc_pool cfg s km heap).1 = .ok (km ((s + i) % cfg.NCPU)).freelist.ptr ∧
      (kalloc_pool cfg s km heap).2.1 =
        Function.update km ((s + i) % cfg.NCPU) ((km ((s + i) % cfg.NCPU)).alloc heap).2 :=
    fun i hi hne hemp =>
      ⟨(kalloc_pool_first cfg s km heap hs hN i hi hne hemp).1,
        (kalloc_pool_first cfg s km heap hs hN i hi hne hemp).2.1⟩
  have hB : (kalloc_pool cfg s km heap).1 = .ok 0 → ∀ c, c < cfg.NCPU → (km c).freelist.ptr = 0 := by
    intro hres
    by_contra hcon
    push_neg at hcon
    obtain ⟨c, hc, hcne⟩ := hcon
    have hex : ∃ i, i < cfg.NCPU ∧ (km ((s + i) % cfg.NCPU)).freelist.ptr ≠ 0 := by
      refine ⟨(c + cfg.NCPU - s) % cfg.NCPU, Nat.mod_lt _ (by omega), ?_⟩
      have : (s + (c + cfg.NCPU - s) % cfg.NCPU) % cfg.NCPU = c := by
        rw [Nat.add_mod_mod]
        have : s + (c + cfg.NCPU - s) = c + cfg.NCPU := by omega
        rw [this, Nat.add_mod_right, Nat.mod_eq_of_lt hc]
      rw [this]
      exact hcne
    have hmin := Nat.find_spec hex
    have hlt : ∀ j, j < Nat.find hex → (km ((s + j) % cfg.NCPU)).freelist.ptr = 0 := by
      intro j hj
      have := Nat.find_min hex hj
      by_contra hne
      exact this ⟨by omega, hne⟩
    have h1 := (hA _ hmin.1 hmin.2 hlt).1
    rw [h1] at hres
    exact hmin.2 (Res.ok.inj hres)
  refine ⟨?_, ⟨hB, fun h => by rw [kalloc_pool_all_empty cfg s km heap h]⟩, ?_⟩
  · intro i hi hne hemp
    obtain ⟨h1, h2⟩ := hA i hi hne hemp
    have hpop := alloc_run (km ((s + i) % cfg.NCPU)) heap hne
    refine ⟨h1, ?_, ?_, ?_, ?_, ?_⟩
    · rw [h2, Function.update_same, hpop]
    · rw [h2, Function.update_same, hpop]
    · intro hpos hlt
      rw [h2, Function.update_same, hpop]
      exact u64_dec _ hpos hlt
    · intro c hc
      rw [h2, Function.update_noteq hc]
    · intro a ha
      rw [(kalloc_pool_first cfg s km heap hs hN i hi hne hemp).2.2]
      split
      · exact memset_outside heap _ 2 _ a ha
      · rfl
  · intro h
    rw [kalloc_pool_all_empty cfg s km heap (hB h)]
    exact ⟨rfl, rfl⟩

/-- Witness for C4: processor 2 of four finds its own pool and pool 3 empty and
steals the page of pool 0. -/
theorem kalloc_pool_round_robin_witness :
    (kalloc_pool demoCfg 2 demoPools zeroMem).1 = .ok 0x5000 ∧
    ((kalloc_pool demoCfg 2 demoPools zeroMem).2.1 0).nfree = 0 :=
  have h := (kalloc_pool_round_robin demoCfg 2 demoPools zeroMem (by decide) (by decide)).1 2
    (by decide) (by decide) (by decide)
  ⟨h.1, h.2.2.1⟩

/-! ## The memory map -/

theorem memsearch_some : ∀ (mem : List Mbmem) (pa i : Nat) (e : Mbmem),
    memsearch mem pa = some (i, e) →
    mem[i]? = some e ∧ e.base ≤ pa ∧ pa < (e.base + e.length) % U64
  | [], _, _, _, h => by simp [memsearch] at h
  | e0 :: es, pa, i, e, h => by
    simp only [memsearch] at h
    split at h
    · rename_i hc
      simp only [Option.some.injEq, Prod.mk.injEq] at h
      obtain ⟨rfl, rfl⟩ := h
      exact ⟨by simp, hc.1, hc.2⟩
    · cases hrec : memsearch es pa with
      | none => simp [hrec] at h
      | some x =>
        obtain ⟨j, e1⟩ := x
        simp only [hrec, Option.map_some', Option.some.injEq, Prod.mk.injEq] at h
        obtain ⟨rfl, rfl⟩ := h
        have := memsearch_some es pa j e1 hrec
        exact ⟨by simpa using this.1, this.2⟩

theorem memsearch_none : ∀ (mem : List Mbmem) (pa : Nat), memsearch mem pa = none →
    ∀ e ∈ mem, ¬ (e.base ≤ pa ∧ pa < (e.base + e.length) % U64)
  | [], _, _, e, he => by simp at he
  | e0 :: es, pa, h, e, he => by
    simp only [memsearch] at h
    split at h
    · simp at h
    · rename_i hc
      rcases List.mem_cons.1 he with rfl | hmem
      · exact hc
      · refine memsearch_none es pa ?_ e hmem
        cases hrec : memsearch es pa with
        | none => rfl
        | some x => simp [hrec] at h

theorem memOk_end (mem : List Mbmem) (hmem : MemOk mem) (e : Mbmem) (he : e ∈ mem) :
    (e.base + e.length) % U64 = e.base + e.length :=
  Nat.mod_eq_of_lt (hmem e he).2

/-- Over a well-formed table `memsize` answers `-1` only for an address outside
every range. -/
theorem memsize_eq_end_iff (L : Layout) (mem : List Mbmem) (hmem : MemOk mem) (v : Nat) :
    memsize L mem v = END ↔ ¬ InRange mem (L.v2p v) := by
  cases hs : memsearch mem (L.v2p v) with
  | none =>
    simp only [memsize, hs, true_iff]
    rintro ⟨e, he, h1, h2⟩
    exact memsearch_none mem _ hs e he ⟨h1, by rw [memOk_end mem hmem e he]; exact h2⟩
  | some x =>
    obtain ⟨i, e⟩ := x
    obtain ⟨hget, h1, h2⟩ := memsearch_some mem _ i e hs
    have he : e ∈ mem := List.getElem?_mem hget
    have hok := hmem e he
    rw [memOk_end mem hmem e he] at h2
    simp only [memsize, hs, memOk_end mem hmem e he]
    constructor
    · intro h
      exfalso
      have h3 := hok.1
      have h4 := hok.2
      simp only [END, U64] at h h4
      omega
    · intro h
      exact absurd ⟨e, he, h1, h2⟩ h

/-! ## kfree_pool, kfree, ksfree -/

/-- The run of `kfree_pool` on an aligned address of a known range. -/
theorem kfree_pool_ok (cfg : Config) (L : Layout) (mem : List Mbmem) (kinited : Bool)
    (m : Kmem) (heap : Mem) (v : Nat) (hmem : MemOk mem) (hal : v % PGSIZE = 0)
    (hin : InRange mem (L.v2p v)) :
    kfree_pool cfg L mem kinited m heap v =
      (.ok (), (m.free (if cfg.ALLOC_MEMSET ∧ kinited ∧ m.size ≤ 16384 then memset heap v 1 m.size
          else heap) v).1,
        (m.free (if cfg.ALLOC_MEMSET ∧ kinited ∧ m.size ≤ 16384 then memset heap v 1 m.size
          else heap) v).2) := by
  have h1 : ¬ memsize L mem v = END := fun h => (memsize_eq_end_iff L mem hmem v).1 h hin
  simp only [kfree_pool, hal, ne_eq, not_true_eq_false, if_false, h1]

theorem kfree_pool_pushes (cfg : Config) (L : Layout) (mem : List Mbmem) (kinited : Bool)
    (m : Kmem) (heap : Mem) (v : Nat) (hmem : MemOk mem) (hal : v % PGSIZE = 0)
    (hin : InRange mem (L.v2p v)) :
    (kfree_pool cfg L mem kinited m heap v).1 = .ok () ∧
    (kfree_pool cfg L mem kinited m heap v).2.1.freelist.ptr = v ∧
    (kfree_pool cfg L mem kinited m heap v).2.2 v = m.freelist.ptr ∧
    (kfree_pool cfg L mem kinited m heap v).2.1.nfree = (m.nfree + 1) % U64 ∧
    (kfree_pool cfg L mem kinited m heap v).2.1.size = m.size ∧
    (∀ a, a ≠ v → (a + 8 ≤ v ∨ v + m.size ≤ a) →
      (kfree_pool cfg L mem kinited m heap v).2.2 a = heap a) ∧
    (∀ l, v ≠ 0 → v ∉ l → Chain heap m.freelist.ptr l → (∀ x ∈ l, x + 8 ≤ v ∨ v + m.size ≤ x) →
      Chain (kfree_pool cfg L mem kinited m heap v).2.2 v (v :: l)) := by
  rw [kfree_pool_ok cfg L mem kinited m heap v hmem hal hin]
  refine ⟨rfl, rfl, ?_, rfl, rfl, ?_, ?_⟩
  · simp only [Kmem.free, Function.update_same]
  · intro a hav hout
    simp only [Kmem.free]
    rw [Function.update_noteq hav]
    split
    · exact memset_outside heap v 1 m.size a hout
    · rfl
  · intro l hv hnot hc hout
    simp only [Kmem.free]
    refine (chain_cons _ v v l).2 ⟨rfl, hv, ?_⟩
    rw [Function.update_same]
    refine chain_congr heap _ l _ (fun x hx => ?_) hc
    have hxv : x ≠ v := fun e => hnot (e ▸ hx)
    rw [Function.update_noteq hxv]
    split
    · exact (memset_outside heap v 1 m.size x (hout x hx)).symm
    · rfl

/-- C6: over a well-formed table, `kfree_pool(m, v)` panics exactly when `v` is
not a multiple of `PGSIZE` or the physical address of `v` lies in none of the
recorded ranges `[base, base + length)`.  When it panics the pool and the
memory are unchanged.  When it does not, `v` is pushed on `m`: `v` is the new
head, `v->next` is the old head, `nfree` is incremented, and a free list that
does not touch the block at `v` now hangs beneath `v`. -/
theorem kfree_pool_panic_iff (cfg : Config) (L : Layout) (mem : List Mbmem) (kinited : Bool)
    (m : Kmem) (heap : Mem) (v : Nat) (hmem : MemOk mem) :
    ((∃ p, (kfree_pool cfg L mem kinited m heap v).1 = .panic p) ↔
      (v % PGSIZE ≠ 0 ∨ ¬ InRange mem (L.v2p v))) ∧
    ((∃ p, (kfree_pool cfg L mem kinited m heap v).1 = .panic p) →
      (kfree_pool cfg L mem kinited m heap v).2 = (m, heap)) ∧
    ((¬ ∃ p, (kfree_pool cfg L mem kinited m heap v).1 = .panic p) →
      (kfree_pool cfg L mem kinited m heap v).1 = .ok () ∧
      (kfree_pool cfg L mem kinited m heap v).2.1.freelist.ptr = v ∧
      (kfree_pool cfg L mem kinited m heap v).2.2 v = m.freelist.ptr ∧
      (kfree_pool cfg L mem kinited m heap v).2.1.nfree = (m.nfree + 1) % U64 ∧
      (∀ l, v ≠ 0 → v ∉ l → Chain heap m.freelist.ptr l →
        (∀ x ∈ l, x + 8 ≤ v ∨ v + m.size ≤ x) →
        Chain (kfree_pool cfg L mem kinited m heap v).2.2 v (v :: l))) := by
  by_cases hal : v % PGSIZE = 0
  · by_cases hin : InRange mem (L.v2p v)
    · obtain ⟨h1, h2, h3, h4, _, _, h6⟩ := kfree_pool_pushes cfg L mem kinited m heap v hmem hal hin
      have hno : ¬ ∃ p, (kfree_pool cfg L mem kinited m heap v).1 = .panic p := by
        rintro ⟨p, hp⟩
        rw [h1] at hp
        cases hp
      refine ⟨⟨fun h => absurd h hno, fun h => ?_⟩, fun h => absurd h hno,
        fun _ => ⟨h1, h2, h3, h4, h6⟩⟩
      rcases h with h | h
      · exact absurd hal h
      · exact absurd hin h
    · have h1 : memsize L mem v = END := (memsize_eq_end_iff L mem hmem v).2 hin
      have hk : kfree_pool cfg L mem kinited m heap v = (.panic .unknown_region, m, heap) := by
        simp only [kfree_pool, hal, ne_eq, not_true_eq_false, if_false, h1, if_true]
      rw [hk]
      exact ⟨⟨fun _ => Or.inr hin, fun _ => ⟨_, rfl⟩⟩, fun _ => rfl,
        fun h => absurd ⟨_, rfl⟩ h⟩
  · have hk : kfree_pool cfg L mem kinited m heap v = (.panic .misaligned, m, heap) := by
      simp only [kfree_pool, ne_eq, hal, not_false_eq_true, if_true]
    rw [hk]
    exact ⟨⟨fun _ => Or.inl hal, fun _ => ⟨_, rfl⟩⟩, fun _ => rfl,
      fun h => absurd ⟨_, rfl⟩ h⟩

/-- Witness for C6: the address one byte into the first page of the map is
misaligned, so `kfree_pool` panics and leaves the pool alone. -/
theorem kfree_pool_panic_iff_witness :
    (kfree_pool demoCfg directMap demoMem true emptyPool zeroMem 0xFFFFFF0000100001).2.1
      = emptyPool :=
  congrArg Prod.fst ((kfree_pool_panic_iff demoCfg directMap demoMem true emptyPool zeroMem
    0xFFFFFF0000100001 (by decide)).2.1 ⟨.misaligned, by decide⟩)

/-- C5: for a page-aligned address `v` of a known range, `kfree(v)` and
`ksfree(slab, v)` run on processor `c` push `v` onto the pool of processor `c`
itself: `v` is that pool's new head with the old head as its `next`, and its
`nfree` is incremented (as a `u64`; by exactly one below the top value).  The
pool of every other processor, and every pool of another kind, is unchanged,
and so is every `next` field outside the block at `v`.  Nothing in this
depends on where `v` was allocated from. -/
theorem kfree_own_pool (cfg : Config) (L : Layout) (mem : List Mbmem) (kinited : Bool)
    (c : Nat) (kmems : Pools) (slabmem : Nat → Pools) (heap : Mem) (slab v : Nat)
    (hmem : MemOk mem) (hal : v % PGSIZE = 0) (hin : InRange mem (L.v2p v)) :
    ((kfree cfg L mem kinited c kmems heap v).1 = .ok () ∧
      ((kfree cfg L mem kinited c kmems heap v).2.1 c).freelist.ptr = v ∧
      (kfree cfg L mem kinited c kmems heap v).2.2 v = (kmems c).freelist.ptr ∧
      ((kfree cfg L mem kinited c kmems heap v).2.1 c).nfree = ((kmems c).nfree + 1) % U64 ∧
      ((kmems c).nfree + 1 < U64 →
        ((kfree cfg L mem kinited c kmems heap v).2.1 c).nfree = (kmems c).nfree + 1) ∧
      (∀ d, d ≠ c → (kfree cfg L mem kinited c kmems heap v).2.1 d = kmems d) ∧
      (∀ a, a ≠ v → (a + 8 ≤ v ∨ v + (kmems c).size ≤ a) →
        (kfree cfg L mem kinited c kmems heap v).2.2 a = heap a)) ∧
    ((ksfree cfg L mem kinited c slabmem heap slab v).1 = .ok () ∧
      ((ksfree cfg L mem kinited c slabmem heap slab v).2.1 slab c).freelist.ptr = v ∧
      (ksfree cfg L mem kinited c slabmem heap slab v).2.2 v = (slabmem slab c).freelist.ptr ∧
      ((ksfree cfg L mem kinited c slabmem heap slab v).2.1 slab c).nfree
        = ((slabmem slab c).nfree + 1) % U64 ∧
      ((slabmem slab c).nfree + 1 < U64 →
        ((ksfree cfg L mem kinited c slabmem heap slab v).2.1 slab c).nfree
          = (slabmem slab c).nfree + 1) ∧
      (∀ t d, (t ≠ slab ∨ d ≠ c) →
        (ksfree cfg L mem kinited c slabmem heap slab v).2.1 t d = slabmem t d) ∧
      (∀ a, a ≠ v → (a + 8 ≤ v ∨ v + (slabmem slab c).size ≤ a) →
        (ksfree cfg L mem kinited c slabmem heap slab v).2.2 a = heap a)) := by
  obtain ⟨a1, a2, a3, a4, _, a6, _⟩ :=
    kfree_pool_pushes cfg L mem kinited (kmems c) heap v hmem hal hin
  obtain ⟨b1, b2, b3, b4, _, b6, _⟩ :=
    kfree_pool_pushes cfg L mem kinited (slabmem slab c) heap v hmem hal hin
  refine ⟨⟨a1, ?_, a3, ?_, ?_, ?_, a6⟩, ⟨b1, ?_, b3, ?_, ?_, ?_, b6⟩⟩
  · simp only [kfree, Function.update_same]; exact a2
  · simp only [kfree, Function.update_same]; exact a4
  · intro hlt
    simp only [kfree, Function.update_same]
    rw [a4, u64_inc _ hlt]
  · intro d hd
    simp only [kfree, Function.update_noteq hd]
  · simp only [ksfree, Function.update_same]; exact b2
  · simp only [ksfree, Function.update_same]; exact b4
  · intro hlt
    simp only [ksfree, Function.update_same]
    rw [b4, u64_inc _ hlt]
  · intro t d htd
    simp only [ksfree]
    by_cases ht : t = slab
    · subst ht
      rw [Function.update_same]
      rcases htd with h | h
      · exact absurd rfl h
      · rw [Function.update_noteq h]
    · rw [Function.update_noteq ht]

/-- Witness for C5: processor 3 frees the second page of the map; the page
lands on pool 3 although pool 3 never owned it. -/
theorem kfree_own_pool_witness :
    ((kfree demoCfg directMap demoMem true 3 demoPools zeroMem 0xFFFFFF0000101000).2.1 3).freelist.ptr
      = 0xFFFFFF0000101000 ∧
    (kfree demoCfg directMap demoMem true 3 demoPools zeroMem 0xFFFFFF0000101000).2.1 0
      = demoPools 0 :=
  have h := (kfree_own_pool demoCfg directMap demoMem true 3 demoPools (fun _ => demoPools) zeroMem
    0 0xFFFFFF0000101000 (by decide) (by decide) (by decide)).1
  ⟨h.2.1, h.2.2.2.2.2.1 0 (by decide)⟩

/-! ## memnext -/

theorem ordered_succ : ∀ (mem : List Mbmem) (i : Nat) (e e1 : Mbmem), Ordered mem →
    mem[i]? = some e → mem[i + 1]? = some e1 → e.base + e.length ≤ e1.base
  | [], _, _, _, _, h, _ => by simp at h
  | a :: as, 0, e, e1, hord, h0, h1 => by
    simp only [List.getElem?_cons_zero, Option.some.injEq] at h0
    subst h0
    simp only [List.getElem?_cons_succ] at h1
    exact (List.pairwise_cons.1 hord).1 e1 (List.getElem?_mem h1)
  | a :: as, i + 1, e, e1, hord, h0, h1 => by
    simp only [List.getElem?_cons_succ] at h0 h1
    exact ordered_succ as i e e1 (List.pairwise_cons.1 hord).2 h0 h1

/-- In a well-formed table every address of a range is found by `memsearch`. -/
theorem memsearch_of_inRange (mem : List Mbmem) (hmem : MemOk mem) (pa : Nat)
    (hin : InRange mem pa) : ∃ i e, memsearch mem pa = some (i, e) := by
  cases hs : memsearch mem pa with
  | none =>
    obtain ⟨e, he, h1, h2⟩ := hin
    exact absurd ⟨h1, by rw [memOk_end mem hmem e he]; exact h2⟩ (memsearch_none mem pa hs e he)
  | some x => exact ⟨x.1, x.2, rfl⟩

/-- The three ways out of `memnext` for an address whose range is entry `i`. -/
theorem memnext_cases (L : Layout) (mem : List Mbmem) (va inc i : Nat) (e : Mbmem)
    (hmem : MemOk mem) (hord : Ordered mem) (hs : memsearch mem (L.v2p va) = some (i, e)) :
    ((L.v2p va + inc) % U64 < e.base + e.length ∧
      memnext L mem va inc = L.p2v ((L.v2p va + inc) % U64)) ∨
    (e.base + e.length ≤ (L.v2p va + inc) % U64 ∧ ∃ e1, mem[i + 1]? = some e1 ∧
      e.base + e.length ≤ e1.base ∧ memnext L mem va inc = L.p2v e1.base) ∨
    (e.base + e.length ≤ (L.v2p va + inc) % U64 ∧ mem[i + 1]? = none ∧
      memnext L mem va inc = END) := by
  obtain ⟨hget, _, _⟩ := memsearch_some mem _ i e hs
  have hend := memOk_end mem hmem e (List.getElem?_mem hget)
  by_cases hlt : (L.v2p va + inc) % U64 < e.base + e.length
  · left
    refine ⟨hlt, ?_⟩
    simp only [memnext, hs, hend, hlt, if_true]
  · have hle : e.base + e.length ≤ (L.v2p va + inc) % U64 := Nat.le_of_not_lt hlt
    right
    cases h1 : mem[i + 1]? with
    | none =>
      right
      refine ⟨hle, rfl, ?_⟩
      simp only [memnext, hs, hend, hlt, if_false, h1]
    | some e1 =>
      left
      refine ⟨hle, e1, rfl, ordered_succ mem i e e1 hord hget h1, ?_⟩
      simp only [memnext, hs, hend, hlt, if_false, h1]

/-- C8, the claim as stated fails: in a map of two adjacent ranges, one page
and sixteen pages, `memnext` from the only page of the first range with an
increment of three pages returns the base of the second range, which is two
pages below the address three pages on. -/
theorem memnext_below_increment :
    MemOk demoMem ∧ Ordered demoMem ∧ InRange demoMem (directMap.v2p 0xFFFFFF0000100000) ∧
    memnext directMap demoMem 0xFFFFFF0000100000 0x3000 = 0xFFFFFF0000101000 ∧
    ¬ (memnext directMap demoMem 0xFFFFFF0000100000 0x3000 = END ∨
      (InRange demoMem (directMap.v2p (memnext directMap demoMem 0xFFFFFF0000100000 0x3000)) ∧
        0xFFFFFF0000100000 + 0x3000 ≤ memnext directMap demoMem 0xFFFFFF0000100000 0x3000)) := by
  decide

/-- C8, amended: over an ordered, pairwise-disjoint, well-formed table, for an
address `A` inside a recorded range and any increment, `memnext(A, inc)` has
three outcomes.  If `A + inc` (physical, in `u64`) is below the end of the
range of `A`, the result is that address, which lies in the range of `A` when
the sum does not wrap.  Otherwise, if a range is recorded next in the table,
the result is the base of that range: it lies at or after the end of the range
of `A`, and inside a recorded range if that next range is not empty, but it
need not reach `A + inc`.  Otherwise the result is the end marker. -/
theorem memnext_next_range (L : Layout) (mem : List Mbmem) (A inc : Nat)
    (hmem : MemOk mem) (hord : Ordered mem) (hin : InRange mem (L.v2p A)) :
    ∃ i e, memsearch mem (L.v2p A) = some (i, e) ∧ mem[i]? = some e ∧
      e.base ≤ L.v2p A ∧ L.v2p A < e.base + e.length ∧
      (((L.v2p A + inc) % U64 < e.base + e.length ∧
          memnext L mem A inc = L.p2v ((L.v2p A + inc) % U64) ∧
          (L.v2p A + inc < U64 → InRange mem (L.v2p A + inc) ∧
            memnext L mem A inc = L.p2v (L.v2p A + inc))) ∨
        (e.base + e.length ≤ (L.v2p A + inc) % U64 ∧ ∃ e1, mem[i + 1]? = some e1 ∧
          memnext L mem A inc = L.p2v e1.base ∧ e.base + e.length ≤ e1.base ∧
          L.v2p A < e1.base ∧ (0 < e1.length → InRange mem e1.base)) ∨
        (e.base + e.length ≤ (L.v2p A + inc) % U64 ∧ mem[i + 1]? = none ∧
          memnext L mem A inc = END)) := by
  obtain ⟨i, e, hs⟩ := memsearch_of_inRange mem hmem _ hin
  obtain ⟨hget, h1, h2⟩ := memsearch_some mem _ i e hs
  have he := List.getElem?_mem hget
  rw [memOk_end mem hmem e he] at h2
  refine ⟨i, e, hs, hget, h1, h2, ?_⟩
  rcases memnext_cases L mem A inc i e hmem hord hs with ⟨c1, c2⟩ | ⟨c1, e1, c2, c3, c4⟩ | c
  · left
    refine ⟨c1, c2, fun hlt => ?_⟩
    rw [Nat.mod_eq_of_lt hlt] at c1 c2
    exact ⟨⟨e, he, by omega, c1⟩, c2⟩
  · right; left
    refine ⟨c1, e1, c2, c4, c3, by omega, fun hpos => ?_⟩
    exact ⟨e1, List.getElem?_mem c2, le_refl _, by omega⟩
  · right; right
    exact c

/-- Witness for C8 amended: from the first page of the sixteen-page range an
increment of one page stays inside the range. -/
theorem memnext_next_range_witness :
    ∃ i e, memsearch demoMem (directMap.v2p 0xFFFFFF0000101000) = some (i, e) ∧
      demoMem[i]? = some e ∧
      e.base ≤ directMap.v2p 0xFFFFFF0000101000 ∧
      directMap.v2p 0xFFFFFF0000101000 < e.base + e.length ∧
      (((directMap.v2p 0xFFFFFF0000101000 + 0x1000) % U64 < e.base + e.length ∧
          memnext directMap demoMem 0xFFFFFF0000101000 0x1000
            = directMap.p2v ((directMap.v2p 0xFFFFFF0000101000 + 0x1000) % U64) ∧
          (directMap.v2p 0xFFFFFF0000101000 + 0x1000 < U64 →
            InRange demoMem (directMap.v2p 0xFFFFFF0000101000 + 0x1000) ∧
            memnext directMap demoMem 0xFFFFFF0000101000 0x1000
              = directMap.p2v (directMap.v2p 0xFFFFFF0000101000 + 0x1000))) ∨
        (e.base + e.length ≤ (directMap.v2p 0xFFFFFF0000101000 + 0x1000) % U64 ∧
          ∃ e1, demoMem[i + 1]? = some e1 ∧
          memnext directMap demoMem 0xFFFFFF0000101000 0x1000 = directMap.p2v e1.base ∧
          e.base + e.length ≤ e1.base ∧
          directMap.v2p 0xFFFFFF0000101000 < e1.base ∧ (0 < e1.length → InRange demoMem e1.base)) ∨
        (e.base + e.length ≤ (directMap.v2p 0xFFFFFF0000101000 + 0x1000) % U64 ∧
          demoMem[i + 1]? = none ∧
          memnext directMap demoMem 0xFFFFFF0000101000 0x1000 = END)) :=
  memnext_next_range directMap demoMem 0xFFFFFF0000101000 0x1000 (by decide) (by decide)
    (by decide)

/-! ## slabinit -/

theorem directMap_directOn (mem : List Mbmem) (hmem : MemOk mem) : DirectOn directMap mem := by
  intro pa hpa
  obtain ⟨e, he, hle⟩ := hpa
  have h2 := (hmem e he).2
  simp only [directMap, U64] at h2 ⊢
  omega

theorem memsize_found (L : Layout) (mem : List Mbmem) (hmem : MemOk mem) (va i : Nat) (e : Mbmem)
    (hs : memsearch mem (L.v2p va) = some (i, e)) :
    memsize L mem va = e.base + e.length - L.v2p va ∧ e ∈ mem ∧ e.base ≤ L.v2p va ∧
      L.v2p va < e.base + e.length := by
  obtain ⟨hget, h1, h2⟩ := memsearch_some mem _ i e hs
  have he := List.getElem?_mem hget
  have hend := memOk_end mem hmem e he
  rw [hend] at h2
  refine ⟨?_, he, h1, h2⟩
  have h3 := (hmem e he).2
  simp only [memsize, hs, hend]
  simp only [U64] at h3 ⊢
  omega

theorem memsize_not_found (L : Layout) (mem : List Mbmem) (va : Nat)
    (hs : memsearch mem (L.v2p va) = none) :
    memsize L mem va = END ∧ ∀ inc, memnext L mem va inc = END := by
  refine ⟨?_, fun inc => ?_⟩
  · simp only [memsize, hs]
  · simp only [memnext, hs]

/-- The cursor `memnext` returns is not behind the one it was given, and it is
past the chunk at the old cursor when that chunk fits into its range. -/
theorem memnext_forward (L : Layout) (mem : List Mbmem) (va size i : Nat) (e : Mbmem)
    (hmem : MemOk mem) (hord : Ordered mem) (hdir : DirectOn L mem)
    (hsz : ∀ e ∈ mem, e.base + e.length + size ≤ U64)
    (hs : memsearch mem (L.v2p va) = some (i, e)) :
    memnext L mem va size = END ∨
      (L.v2p va ≤ L.v2p (memnext L mem va size) ∧
        (L.v2p va + size ≤ e.base + e.length →
          L.v2p va + size ≤ L.v2p (memnext L mem va size))) := by
  obtain ⟨_, he, h1, h2⟩ := memsize_found L mem hmem va i e hs
  have h3 := hsz e he
  have hmod : (L.v2p va + size) % U64 = L.v2p va + size := Nat.mod_eq_of_lt (by omega)
  rcases memnext_cases L mem va size i e hmem hord hs with ⟨c1, c2⟩ | ⟨c1, e1, c2, c3, c4⟩ | c
  · right
    rw [hmod] at c1 c2
    rw [c2, hdir _ ⟨e, he, by omega⟩]
    exact ⟨by omega, fun _ => le_refl _⟩
  · right
    rw [c4, hdir _ ⟨e1, List.getElem?_mem c2, by omega⟩]
    exact ⟨by omega, fun h => by omega⟩
  · left
    exact c.2.2

theorem slabinit_skip_ok (L : Layout) (mem : List Mbmem) (size : Nat)
    (hmem : MemOk mem) (hord : Ordered mem) (hdir : DirectOn L mem)
    (hsz : ∀ e ∈ mem, e.base + e.length + size ≤ U64) :
    ∀ (fuel p p1 : Nat), slabinit_skip L mem size fuel p = .ok p1 →
      ¬ (memsize L mem p1 < size) ∧ L.v2p p ≤ L.v2p p1
  | 0, _, _, h => by simp [slabinit_skip] at h
  | fuel + 1, p, p1, h => by
    simp only [slabinit_skip] at h
    split at h
    · split at h
      · simp at h
      · rename_i hne
        obtain ⟨a1, a2⟩ := slabinit_skip_ok L mem size hmem hord hdir hsz fuel _ p1 h
        refine ⟨a1, ?_⟩
        cases hs : memsearch mem (L.v2p p) with
        | none => exact absurd ((memsize_not_found L mem p hs).2 size) hne
        | some x =>
          rcases memnext_forward L mem p size x.1 x.2 hmem hord hdir hsz hs with h5 | h5
          · exact absurd h5 hne
          · exact le_trans h5.1 a2
    · rename_i hge
      simp only [Res.ok.injEq] at h
      subst h
      exact ⟨hge, le_refl _⟩

theorem kfree_pool_ok_inv (cfg : Config) (L : Layout) (mem : List Mbmem) (kinited : Bool)
    (m : Kmem) (heap : Mem) (v : Nat) (u : Unit)
    (h : (kfree_pool cfg L mem kinited m heap v).1 = .ok u) :
    v % PGSIZE = 0 ∧ memsize L mem v ≠ END ∧
    (kfree_pool cfg L mem kinited m heap v).2.1.size = m.size ∧
    (kfree_pool cfg L mem kinited m heap v).2.1.nfree = (m.nfree + 1) % U64 := by
  by_cases hal : v % PGSIZE = 0
  · by_cases hm : memsize L mem v = END
    · simp [kfree_pool, hal, hm] at h
    · refine ⟨hal, hm, ?_, ?_⟩ <;>
        simp only [kfree_pool, hal, hm, ne_eq, not_true_eq_false, if_false, Kmem.free]
  · simp [kfree_pool, hal] at h

theorem slabinit_loop_ok (cfg : Config) (L : Layout) (mem : List Mbmem) (kinited : Bool)
    (fuel : Nat) (hmem : MemOk mem) (hord : Ordered mem) (hdir : DirectOn L mem) :
    ∀ (n : Nat) (st st2 : SlabState), (∀ e ∈ mem, e.base + e.length + st.k.size ≤ U64) →
      st.k.nfree < U64 → st.off < U64 →
      slabinit_loop cfg L mem kinited fuel n st = .ok st2 →
      ∃ cs : List Nat, cs.length = n ∧
        (st2.k, st2.heap) = cs.foldl (pushChunk cfg L mem kinited) (st.k, st.heap) ∧
        st2.k.size = st.k.size ∧
        st2.k.nfree = (st.k.nfree + n) % U64 ∧
        st2.off = (st.off + n * st.k.size) % U64 ∧
        (st2.p = END ∨ (st.p ≠ END ∧ L.v2p st.p ≤ L.v2p st2.p)) ∧
        (∀ c ∈ cs, st.p ≠ END ∧ L.v2p st.p ≤ L.v2p c ∧ c % PGSIZE = 0 ∧
          ∃ e ∈ mem, e.base ≤ L.v2p c ∧ L.v2p c + st.k.size ≤ e.base + e.length) ∧
        cs.Pairwise (fun a b => L.v2p a + st.k.size ≤ L.v2p b) ∧
        (st2.p = END ∨ ∀ c ∈ cs, L.v2p c + st.k.size ≤ L.v2p st2.p)
  | 0, st, st2, _, hnf, hoff, h => by
    simp only [slabinit_loop, Res.ok.injEq] at h
    subst h
    refine ⟨[], rfl, rfl, rfl, ?_, ?_, ?_, ?_, List.Pairwise.nil, ?_⟩
    · rw [Nat.add_zero, Nat.mod_eq_of_lt hnf]
    · rw [Nat.zero_mul, Nat.add_zero, Nat.mod_eq_of_lt hoff]
    · by_cases hp : st.p = END
      · exact Or.inl hp
      · exact Or.inr ⟨hp, le_refl _⟩
    · intro c hc
      simp at hc
    · right
      intro c hc
      simp at hc
  | n + 1, st, st2, hsz, hnf, hoff, h => by
    simp only [slabinit_loop] at h
    split at h
    · simp at h
    · rename_i hpne
      split at h
      · rename_i p1 hskip
        obtain ⟨hfit, hfwd⟩ := slabinit_skip_ok L mem st.k.size hmem hord hdir hsz fuel st.p p1 hskip
        split at h
        · rename_i u hk
          obtain ⟨hal, hms, hsize, hnfree⟩ := kfree_pool_ok_inv cfg L mem kinited st.k st.heap p1 u hk
          rw [hsize] at h
          have hsz1 : ∀ e ∈ mem, e.base + e.length +
              (kfree_pool cfg L mem kinited st.k st.heap p1).2.1.size ≤ U64 := by
            rw [hsize]; exact hsz
          have hU : 0 < U64 := by simp [U64]
          obtain ⟨cs, b1, b2, b3, b4, b5, b6, b7, b8, b9⟩ :=
            slabinit_loop_ok cfg L mem kinited fuel hmem hord hdir n _ st2 hsz1
              (by rw [hnfree]; exact Nat.mod_lt _ hU) (Nat.mod_lt _ hU) h
          simp only [hsize] at b3 b4 b5 b6 b7 b8 b9
          cases hs : memsearch mem (L.v2p p1) with
          | none => exact absurd (memsize_not_found L mem p1 hs).1 hms
          | some x =>
            obtain ⟨g1, g2, g3, g4⟩ := memsize_found L mem hmem p1 x.1 x.2 hs
            have hchunk : L.v2p p1 + st.k.size ≤ x.2.base + x.2.length := by
              rw [g1] at hfit
              omega
            have hnext := memnext_forward L mem p1 st.k.size x.1 x.2 hmem hord hdir hsz hs
            refine ⟨p1 :: cs, by simp [b1], ?_, b3, ?_, ?_, ?_, ?_, ?_, ?_⟩
            · rw [b2]
              rfl
            · rw [b4, hnfree]
              simp only [U64]
              omega
            · rw [b5, Nat.succ_mul]
              simp only [U64]
              omega
            · rcases b6 with b6 | ⟨b6, b6b⟩
              · exact Or.inl b6
              · rcases hnext with h8 | h8
                · exact absurd h8 b6
                · exact Or.inr ⟨hpne, by have := h8.2 hchunk; omega⟩
            · intro c hc
              rcases List.mem_cons.1 hc with rfl | hc
              · exact ⟨hpne, hfwd, hal, x.2, g2, g3, hchunk⟩
              · obtain ⟨d1, d2, d3, d4⟩ := b7 c hc
                rcases hnext with h8 | h8
                · exact absurd h8 d1
                · exact ⟨hpne, by have := h8.2 hchunk; omega, d3, d4⟩
            · refine List.pairwise_cons.2 ⟨fun c hc => ?_, b8⟩
              obtain ⟨d1, d2, _, _⟩ := b7 c hc
              rcases hnext with h8 | h8
              · exact absurd h8 d1
              · have := h8.2 hchunk
                omega
            · rcases b6 with b6 | ⟨b6, b6b⟩
              · exact Or.inl b6
              · rcases b9 with b9 | b9
                · exact Or.inl b9
                · right
                  intro c hc
                  rcases List.mem_cons.1 hc with rfl | hc
                  · rcases hnext with h8 | h8
                    · exact absurd h8 b6
                    · have := h8.2 hchunk
                      omega
                  · exact b9 c hc
        · simp at h
        · simp at h
      · simp at h
      · simp at h

/-- C7: when `slabinit(k, p, off)` returns without a panic over an ordered,
pairwise-disjoint, well-formed table, it has pushed exactly `k->ninit` chunks
of `k->size` bytes onto `k` with `kfree_pool`, one after the other.  `k->nfree`
has grown by `ninit` and `*off` by `ninit * size` (as `u64` values, exactly so
when the sums fit).  Taken in the order pushed, every chunk ends at or before
the start of each later one, so no two share a byte; every chunk is
page-aligned and lies inside one recorded range; and the final cursor is the
end marker or lies at or past the end of every chunk. -/
theorem slabinit_consumes_chunks (cfg : Config) (L : Layout) (mem : List Mbmem) (kinited : Bool)
    (fuel : Nat) (st st2 : SlabState)
    (hmem : MemOk mem) (hord : Ordered mem) (hdir : DirectOn L mem)
    (hsz : ∀ e ∈ mem, e.base + e.length + st.k.size ≤ U64)
    (_hninit : st.k.ninit < 2 ^ 31) (hnf : st.k.nfree < U64) (hoff : st.off < U64)
    (hret : slabinit cfg L mem kinited fuel st = .ok st2) :
    ∃ cs : List Nat, cs.length = st.k.ninit ∧
      (st2.k, st2.heap) = cs.foldl (pushChunk cfg L mem kinited) (st.k, st.heap) ∧
      st2.k.nfree = (st.k.nfree + st.k.ninit) % U64 ∧
      (st.k.nfree + st.k.ninit < U64 → st2.k.nfree = st.k.nfree + st.k.ninit) ∧
      st2.off = (st.off + st.k.ninit * st.k.size) % U64 ∧
      (st.off + st.k.ninit * st.k.size < U64 → st2.off = st.off + st.k.ninit * st.k.size) ∧
      cs.Pairwise (fun a b => L.v2p a + st.k.size ≤ L.v2p b) ∧
      (∀ c ∈ cs, c % PGSIZE = 0 ∧
        ∃ e ∈ mem, e.base ≤ L.v2p c ∧ L.v2p c + st.k.size ≤ e.base + e.length) ∧
      (st2.p = END ∨ ∀ c ∈ cs, L.v2p c + st.k.size ≤ L.v2p st2.p) := by
  obtain ⟨cs, b1, b2, _, b4, b5, _, b7, b8, b9⟩ :=
    slabinit_loop_ok cfg L mem kinited fuel hmem hord hdir st.k.ninit st st2 hsz hnf hoff hret
  refine ⟨cs, b1, b2, b4, fun h => ?_, b5, fun h => ?_, b8, fun c hc => ?_, b9⟩
  · rw [b4, Nat.mod_eq_of_lt h]
  · rw [b5, Nat.mod_eq_of_lt h]
  · exact ⟨(b7 c hc).2.2.1, (b7 c hc).2.2.2⟩

/-- Witness for C7: two two-page objects are carved from `demoMem`.  The one
page of the first range is too small and is skipped; the chunks are the first
four pages of the second range. -/
theorem slabinit_consumes_chunks_witness :
    slabinit demoCfg directMap demoMem false 2 demoSlab = .ok demoSlabOut ∧
    ∃ cs : List Nat, cs.length = 2 ∧
      (demoSlabOut.k, demoSlabOut.heap)
        = cs.foldl (pushChunk demoCfg directMap demoMem false) (demoSlab.k, demoSlab.heap) ∧
      cs.Pairwise (fun a b => directMap.v2p a + 0x2000 ≤ directMap.v2p b) ∧
      (demoSlabOut.p = END ∨ ∀ c ∈ cs, directMap.v2p c + 0x2000 ≤ directMap.v2p demoSlabOut.p) := by
  have hret : slabinit demoCfg directMap demoMem false 2 demoSlab = .ok demoSlabOut := rfl
  obtain ⟨cs, h1, h2, _, _, _, _, h7, _, h9⟩ :=
    slabinit_consumes_chunks demoCfg directMap demoMem false 2 demoSlab demoSlabOut
      (by decide) (by decide) (directMap_directOn demoMem (by decide)) (by decide) (by decide)
      (by decide) (by decide) hret
  exact ⟨hret, cs, h1, h2, h7, h9⟩

/-! ## mnode::cache_pin -/

theorem cache_pin_same (m : Mnode) (flag : Bool) (h : m.cache_pin_ = flag) :
    m.cache_pin flag = m := by
  simp only [Mnode.cache_pin, h, if_true]

theorem cache_pin_flip (m : Mnode) (flag : Bool) (h : m.cache_pin_ ≠ flag) :
    m.cache_pin flag =
      { m with cache_pin_ := flag, refcount := m.refcount + (if flag then 1 else -1) } := by
  cases flag <;> cases hp : m.cache_pin_ <;>
    simp_all [Mnode.cache_pin, cmpxch, Mnode.inc, Mnode.dec, sub_eq_add_neg]

theorem cache_pin_pin (m : Mnode) (flag : Bool) : (m.cache_pin flag).cache_pin_ = flag := by
  by_cases h : m.cache_pin_ = flag
  · rw [cache_pin_same m flag h, h]
  · rw [cache_pin_flip m flag h]

theorem cache_pin_accounting (fs inum : Nat) (refs : Int) : ∀ (flags : List Bool) (m : Mnode),
    m.refcount = refs + (if m.cache_pin_ then 1 else 0) →
    (flags.foldl Mnode.cache_pin m).refcount
      = refs + (if (flags.foldl Mnode.cache_pin m).cache_pin_ then 1 else 0)
  | [], _, h => h
  | f :: fl, m, h => by
    refine cache_pin_accounting fs inum refs fl (m.cache_pin f) ?_
    by_cases hp : m.cache_pin_ = f
    · rw [cache_pin_same m f hp]
      exact h
    · rw [cache_pin_flip m f hp]
      cases f <;> cases hq : m.cache_pin_ <;> simp_all

/-- C9: `mnode::cache_pin(flag)` on a node whose pin already equals `flag`
changes nothing.  Otherwise it sets the pin to `flag` and changes the strong
reference count by exactly `+1` for `true` and exactly `-1` for `false`.  So
calling it twice with the same flag leaves the node as calling it once does,
for both flags and every node, and after any sequence of calls on a freshly
constructed node the count is its initial value plus one if the node is pinned
and plus nothing if it is not. -/
theorem cache_pin_idempotent_and_counted :
    (∀ (m : Mnode) (flag : Bool), m.cache_pin_ = flag → m.cache_pin flag = m) ∧
    (∀ (m : Mnode) (flag : Bool), m.cache_pin_ ≠ flag →
      (m.cache_pin flag).cache_pin_ = flag ∧
      (m.cache_pin flag).refcount = m.refcount + (if flag then 1 else -1)) ∧
    (∀ (m : Mnode) (flag : Bool), (m.cache_pin flag).cache_pin flag = m.cache_pin flag) ∧
    (∀ (fs inum : Nat) (refs : Int) (flags : List Bool),
      (flags.foldl Mnode.cache_pin (Mnode.new fs inum refs)).refcount
        = refs + (if (flags.foldl Mnode.cache_pin (Mnode.new fs inum refs)).cache_pin_
            then 1 else 0)) ∧
    (∀ (m : Mnode), m.linkcount_onzero.linkcount_onzero = m.linkcount_onzero) := by
  refine ⟨cache_pin_same, fun m flag h => ?_, fun m flag => ?_, fun fs inum refs flags => ?_,
    fun m => ?_⟩
  · rw [cache_pin_flip m flag h]
    exact ⟨rfl, rfl⟩
  · exact cache_pin_same _ flag (cache_pin_pin m flag)
  · exact cache_pin_accounting fs inum refs flags (Mnode.new fs inum refs) (by simp [Mnode.new])
  · exact cache_pin_same _ false (cache_pin_pin m false)

/-- Witness for C9: pinning a fresh node that holds one reference sets the pin
and makes the count two. -/
theorem cache_pin_idempotent_and_counted_witness :
    ((Mnode.new 1 42 1).cache_pin true).cache_pin_ = true ∧
    ((Mnode.new 1 42 1).cache_pin true).refcount = 2 :=
  cache_pin_idempotent_and_counted.2.1 (Mnode.new 1 42 1) true (by decide)

/-! ## mfile::resizer::resize_append -/

/-- C10: for a file of `n` pages and a size of `n + 1` pages,
`resize_append(size, pi)` passes its assertion and leaves a file of that size
in which `get_page(n)` is the installed page `pi` and `get_page(i)` is what it
was before for every other index. -/
theorem resize_append_installs (mf : Mfile) (size pi : Nat)
    (h : PGROUNDUP size / PGSIZE = PGROUNDUP mf.size_ / PGSIZE + 1) :
    (mf.resize_append size pi).1 = .ok () ∧
    (mf.resize_append size pi).2.size_ = size ∧
    (mf.resize_append size pi).2.get_page (PGROUNDUP mf.size_ / PGSIZE) = pi ∧
    (∀ i, i ≠ PGROUNDUP mf.size_ / PGSIZE →
      (mf.resize_append size pi).2.get_page i = mf.get_page i) := by
  simp only [Mfile.resize_append, h, if_true, Mfile.get_page, Function.update_same, ite_self,
    true_and]
  intro i hi
  rw [Function.update_noteq hi]

/-- Witness for C10: the first page of an empty file. -/
theorem resize_append_installs_witness :
    (Mfile.empty.resize_append 100 0x7000).1 = .ok () ∧
    (Mfile.empty.resize_append 100 0x7000).2.size_ = 100 ∧
    (Mfile.empty.resize_append 100 0x7000).2.get_page 0 = 0x7000 ∧
    (∀ i, i ≠ 0 → (Mfile.empty.resize_append 100 0x7000).2.get_page i = Mfile.empty.get_page i) :=
  resize_append_installs Mfile.empty 100 0x7000 (by decide)

/-! ## mfile: resize_nogrow, the invariant, the assertion of resize_append -/

theorem pgroundup_div (size : Nat) (h : NoWrap size) : PGROUNDUP size / PGSIZE = pageCount size := by
  unfold NoWrap at h
  unfold PGROUNDUP pageCount
  rw [Nat.mod_eq_of_lt h]
  unfold PGSIZE
  omega

theorem pgroundup_le_iff (a b : Nat) :
    PGROUNDUP a ≤ PGROUNDUP b ↔ PGROUNDUP a / PGSIZE ≤ PGROUNDUP b / PGSIZE := by
  unfold PGROUNDUP
  generalize (a + PGSIZE - 1) % U64 = x
  generalize (b + PGSIZE - 1) % U64 = y
  unfold PGSIZE
  omega

theorem resize_nogrow_ok (mf : Mfile) (newsize : Nat) (h : PGROUNDUP newsize ≤ PGROUNDUP mf.size_) :
    mf.resize_nogrow newsize = (.ok (), (⟨newsize, unset mf.pages_ (PGROUNDUP newsize / PGSIZE)
      (PGROUNDUP mf.size_ / PGSIZE)⟩ : Mfile)) := by
  simp only [Mfile.resize_nogrow, h, if_true]

theorem resize_nogrow_ok_inv (mf : Mfile) (newsize : Nat)
    (h : (mf.resize_nogrow newsize).1 = .ok ()) : PGROUNDUP newsize ≤ PGROUNDUP mf.size_ := by
  by_contra hc
  simp [Mfile.resize_nogrow, hc] at h

theorem resize_append_ok_inv (mf : Mfile) (size pi : Nat)
    (h : (mf.resize_append size pi).1 = .ok ()) :
    PGROUNDUP mf.size_ / PGSIZE + 1 = PGROUNDUP size / PGSIZE := by
  by_contra hc
  simp [Mfile.resize_append, hc] at h

theorem bounded_empty : Mfile.empty.Bounded := fun _ _ => rfl

theorem bounded_append (mf : Mfile) (size pi : Nat) (hb : mf.Bounded) :
    (mf.resize_append size pi).2.Bounded := by
  by_cases h : PGROUNDUP mf.size_ / PGSIZE + 1 = PGROUNDUP size / PGSIZE
  · simp only [Mfile.resize_append, h, if_true]
    intro i hi
    show Function.update mf.pages_ (PGROUNDUP mf.size_ / PGSIZE) (some pi) i = none
    have hi2 : PGROUNDUP size / PGSIZE ≤ i := hi
    rw [Function.update_noteq (by omega)]
    exact hb i (by omega)
  · simp only [Mfile.resize_append, h, if_false]
    exact hb

theorem bounded_nogrow (mf : Mfile) (newsize : Nat) (hb : mf.Bounded)
    (h : PGROUNDUP newsize ≤ PGROUNDUP mf.size_) : (mf.resize_nogrow newsize).2.Bounded := by
  rw [resize_nogrow_ok mf newsize h]
  intro i hi
  have hi2 : PGROUNDUP newsize / PGSIZE ≤ i := hi
  show unset mf.pages_ _ _ i = none
  simp only [unset]
  split
  · rfl
  · rename_i hc
    exact hb i (by omega)

theorem bounded_fivePages : fivePages.Bounded :=
  bounded_append _ _ _ (bounded_append _ _ _ (bounded_append _ _ _ (bounded_append _ _ _
    (bounded_append _ _ _ bounded_empty))))

/-- C11: for a file none of whose slots at or past its page count is set, and a
new size whose page rounding is at most that of the current size,
`resize_nogrow(newsize)` passes its assertion; afterwards the size is
`newsize`, `get_page(i)` is empty for every `i` at or past the new page count,
and `get_page(i)` is the page it was for every `i` below it. -/
theorem resize_nogrow_truncates (mf : Mfile) (newsize : Nat) (hb : mf.Bounded)
    (h : PGROUNDUP newsize ≤ PGROUNDUP mf.size_) :
    (mf.resize_nogrow newsize).1 = .ok () ∧
    (mf.resize_nogrow newsize).2.size_ = newsize ∧
    (∀ i, PGROUNDUP newsize / PGSIZE ≤ i → (mf.resize_nogrow newsize).2.get_page i = 0) ∧
    (∀ i, i < PGROUNDUP newsize / PGSIZE →
      (mf.resize_nogrow newsize).2.get_page i = mf.get_page i) := by
  rw [resize_nogrow_ok mf newsize h]
  refine ⟨rfl, rfl, fun i hi => ?_, fun i hi => ?_⟩
  · have hnone : unset mf.pages_ (PGROUNDUP newsize / PGSIZE) (PGROUNDUP mf.size_ / PGSIZE) i
        = none := by
      simp only [unset]
      split
      · rfl
      · exact hb i (by omega)
    simp only [Mfile.get_page, hnone, ite_self]
  · have hsame : unset mf.pages_ (PGROUNDUP newsize / PGSIZE) (PGROUNDUP mf.size_ / PGSIZE) i
        = mf.pages_ i := by
      simp only [unset]
      rw [if_neg (by omega)]
    simp only [Mfile.get_page, hsame, ite_self]

/-- Witness for C11: five `resize_append` calls take an empty file to five
pages; `resize_nogrow` to two pages keeps pages 0 and 1 and empties the slots
2, 3 and 4. -/
theorem resize_nogrow_truncates_witness :
    (fivePages.resize_nogrow 8192).2.get_page 0 = 0x7000 ∧
    (fivePages.resize_nogrow 8192).2.get_page 1 = 0x8000 ∧
    (fivePages.resize_nogrow 8192).2.get_page 2 = 0 ∧
    (fivePages.resize_nogrow 8192).2.get_page 3 = 0 ∧
    (fivePages.resize_nogrow 8192).2.get_page 4 = 0 :=
  have h := resize_nogrow_truncates fivePages 8192 bounded_fivePages (by decide)
  ⟨h.2.2.2 0 (by decide), h.2.2.2 1 (by decide), h.2.2.1 2 (by decide), h.2.2.1 3 (by decide),
    h.2.2.1 4 (by decide)⟩

theorem inv_of_bounded (mf : Mfile) (hw : NoWrap mf.size_) (hb : mf.Bounded) : mf.Inv := by
  intro i hi
  by_contra hc
  exact hi (hb i (by rw [pgroundup_div _ hw]; omega))

theorem bounded_of_inv (mf : Mfile) (hw : NoWrap mf.size_) (hinv : mf.Inv) : mf.Bounded := by
  intro i hi
  by_contra hc
  have := hinv i hc
  rw [pgroundup_div _ hw] at hi
  omega

theorem inv_ops : ∀ (ops : List ROp) (mf : Mfile), NoWrap mf.size_ → mf.Inv → ROpsOk mf ops →
    NoWrap (ops.foldl ROp.step mf).size_ ∧ (ops.foldl ROp.step mf).Inv
  | [], _, hw, hinv, _ => ⟨hw, hinv⟩
  | .append size pi :: ops, mf, hw, hinv, hok => by
    obtain ⟨⟨h1, h2⟩, hrest⟩ := hok
    have hb := bounded_append mf size pi (bounded_of_inv mf hw hinv)
    have hsz : (mf.resize_append size pi).2.size_ = size := by
      simp only [Mfile.resize_append, resize_append_ok_inv mf size pi h1, if_true]
    have hw2 : NoWrap (mf.resize_append size pi).2.size_ := by rw [hsz]; exact h2
    exact inv_ops ops _ hw2 (inv_of_bounded _ hw2 hb) hrest
  | .nogrow newsize :: ops, mf, hw, hinv, hok => by
    obtain ⟨⟨h1, h2⟩, hrest⟩ := hok
    have hle := resize_nogrow_ok_inv mf newsize h1
    have hb := bounded_nogrow mf newsize (bounded_of_inv mf hw hinv) hle
    have hsz : (mf.resize_nogrow newsize).2.size_ = newsize := by
      rw [resize_nogrow_ok mf newsize hle]
    have hw2 : NoWrap (mf.resize_nogrow newsize).2.size_ := by rw [hsz]; exact h2
    exact inv_ops ops _ hw2 (inv_of_bounded _ hw2 hb) hrest

/-- C12: the invariant "every set page index is strictly less than
`ceil(size / PAGE)`" holds of a freshly created empty file; it is kept by every
`resize_append` and every `resize_nogrow` whose assertion holds, for sizes
whose page rounding does not overflow 64 bits; so it holds after every history
of such calls on an empty file. -/
theorem mfile_inv_preserved :
    Mfile.empty.Inv ∧
    (∀ (mf : Mfile) (size pi : Nat), mf.Inv → NoWrap mf.size_ → NoWrap size →
      (mf.resize_append size pi).1 = .ok () → (mf.resize_append size pi).2.Inv) ∧
    (∀ (mf : Mfile) (newsize : Nat), mf.Inv → NoWrap mf.size_ → NoWrap newsize →
      (mf.resize_nogrow newsize).1 = .ok () → (mf.resize_nogrow newsize).2.Inv) ∧
    (∀ (ops : List ROp), ROpsOk Mfile.empty ops → (ops.foldl ROp.step Mfile.empty).Inv) := by
  have he : Mfile.empty.Inv := fun i hi => absurd rfl hi
  refine ⟨he, fun mf size pi hinv hw hw2 hok => ?_, fun mf newsize hinv hw hw2 hok => ?_,
    fun ops hok => ?_⟩
  · exact (inv_ops [.append size pi] mf hw hinv ⟨⟨hok, hw2⟩, trivial⟩).2
  · exact (inv_ops [.nogrow newsize] mf hw hinv ⟨⟨hok, hw2⟩, trivial⟩).2
  · exact (inv_ops ops Mfile.empty (by decide) he hok).2

/-- Witness for C12: the invariant holds of the five-page file cut back to two
pages. -/
theorem mfile_inv_preserved_witness : (fivePages.resize_nogrow 8192).2.Inv :=
  mfile_inv_preserved.2.2.2
    [.append 4096 0x7000, .append 8192 0x8000, .append 12288 0x9000, .append 16384 0xA000,
      .append 20480 0xB000, .nogrow 8192]
    ⟨⟨by decide, by decide⟩, ⟨by decide, by decide⟩, ⟨by decide, by decide⟩,
      ⟨by decide, by decide⟩, ⟨by decide, by decide⟩, ⟨by decide, by decide⟩, trivial⟩

/-- C13: `resize_append(size, pi)` fails its assertion exactly when the page
count of `size` differs from the page count of the current size plus one, and
then the size and the page map are as before.  For sizes whose page rounding
does not overflow, the failing calls are those that grow by more than one page,
those that do not shrink and stay within the current page count, and all that
shrink. -/
theorem resize_append_fails_iff (mf : Mfile) (size pi : Nat) :
    ((mf.resize_append size pi).1 = .panic .assert_failed ↔
      PGROUNDUP size / PGSIZE ≠ PGROUNDUP mf.size_ / PGSIZE + 1) ∧
    ((mf.resize_append size pi).1 = .ok () ↔
      PGROUNDUP size / PGSIZE = PGROUNDUP mf.size_ / PGSIZE + 1) ∧
    ((mf.resize_append size pi).1 = .panic .assert_failed →
      (mf.resize_append size pi).2.size_ = mf.size_ ∧
      (mf.resize_append size pi).2.pages_ = mf.pages_) ∧
    (NoWrap mf.size_ → NoWrap size →
      (PGROUNDUP size / PGSIZE ≠ PGROUNDUP mf.size_ / PGSIZE + 1 ↔
        (pageCount mf.size_ + 1 < pageCount size ∨
          (mf.size_ ≤ size ∧ pageCount size = pageCount mf.size_) ∨
          size < mf.size_))) := by
  by_cases h : PGROUNDUP mf.size_ / PGSIZE + 1 = PGROUNDUP size / PGSIZE
  · have hr : mf.resize_append size pi = (.ok (), (⟨size,
        Function.update mf.pages_ (PGROUNDUP mf.size_ / PGSIZE) (some pi)⟩ : Mfile)) := by
      simp only [Mfile.resize_append, h, if_true]
    rw [hr]
    refine ⟨?_, ?_, ?_, ?_⟩
    · constructor
      · intro hc
        cases hc
      · intro hc
        exact absurd h.symm hc
    · constructor
      · intro _
        exact h.symm
      · intro _
        rfl
    · intro hc
      cases hc
    · intro hw hw2
      rw [pgroundup_div _ hw, pgroundup_div _ hw2] at h ⊢
      unfold pageCount PGSIZE at h ⊢
      omega
  · have hr : mf.resize_append size pi = (.panic .assert_failed, mf) := by
      simp only [Mfile.resize_append, h, if_false]
    rw [hr]
    refine ⟨?_, ?_, ?_, ?_⟩
    · constructor
      · intro _ hc
        exact h hc.symm
      · intro _
        rfl
    · constructor
      · intro hc
        cases hc
      · intro hc
        exact absurd hc.symm h
    · intro _
      exact ⟨rfl, rfl⟩
    · intro hw hw2
      rw [pgroundup_div _ hw, pgroundup_div _ hw2] at h ⊢
      unfold pageCount PGSIZE at h ⊢
      omega

/-- Witness for C13: growing the five-page file by two pages at once fails the
assertion and leaves its size at five pages. -/
theorem resize_append_fails_iff_witness :
    (fivePages.resize_append 28672 0xC000).2.size_ = 20480 :=
  ((resize_append_fails_iff fivePages 28672 0xC000).2.2.1
    ((resize_append_fails_iff fivePages 28672 0xC000).1.2 (by decide))).1

/-! ## The order of the stores in the resizer -/

/-- C17, the claim as stated fails: `resize_nogrow(0)` on a file of one page
first stores the size.  After that first step `size_` has its lower value `0`
while slot 0, whose index is not below `ceil(0 / PAGE) = 0`, is still set; the
slot is unset only by the second step. -/
theorem resize_nogrow_lowers_size_first :
    (onePage.resize_nogrow 0).1 = .ok () ∧ onePage.size_ = 4096 ∧
    (onePage.resize_nogrow_steps 0).map (fun st => (st.size_, pageCount st.size_, st.pages_ 0))
      = [(0, 0, some 0x7000), (0, 0, none)] ∧
    ¬ (∀ st ∈ onePage.resize_nogrow_steps 0, st.size_ < onePage.size_ →
        ∀ i, pageCount st.size_ ≤ i → st.pages_ i = none) := by
  refine ⟨by decide, by decide, by decide, fun h => ?_⟩
  have h0 := h ⟨0, onePage.pages_⟩ (List.mem_cons_self _ _) (by decide) 0 (by decide)
  revert h0
  decide

/-- C17, amended: growing installs the page before raising the size, shrinking
lowers the size before unmapping.  Past its assertion `resize_append` first
fills the appended slot, the size still the old one, and then stores the size,
so in no state of it is the appended slot unset.  Past its assertion
`resize_nogrow` has first stored the new size, the page map still the old one,
and then unsets the slots from the new page count up to the old one.  In every
state of either operation the slots below the page count of the current
`size_` already hold their final contents. -/
theorem resizer_store_order (mf : Mfile) :
    (∀ (size pi : Nat), PGROUNDUP mf.size_ / PGSIZE + 1 = PGROUNDUP size / PGSIZE →
      ∃ t1 t2, mf.resize_append_steps size pi = [t1, t2] ∧
        t1.size_ = mf.size_ ∧ t1.pages_ (PGROUNDUP mf.size_ / PGSIZE) = some pi ∧
        (∀ i, i ≠ PGROUNDUP mf.size_ / PGSIZE → t1.pages_ i = mf.pages_ i) ∧
        t2.size_ = size ∧ t2.pages_ = t1.pages_ ∧ t2 = (mf.resize_append size pi).2 ∧
        (∀ st ∈ mf.resize_append_steps size pi,
          st.pages_ (PGROUNDUP mf.size_ / PGSIZE) = some pi) ∧
        (∀ st ∈ mf.resize_append_steps size pi, ∀ i, i < PGROUNDUP st.size_ / PGSIZE →
          st.pages_ i = (mf.resize_append size pi).2.pages_ i)) ∧
    (∀ (newsize : Nat), PGROUNDUP newsize ≤ PGROUNDUP mf.size_ →
      ∃ s1 s2, mf.resize_nogrow_steps newsize = [s1, s2] ∧
        s1.size_ = newsize ∧ s1.pages_ = mf.pages_ ∧
        s2.size_ = newsize ∧
        s2.pages_ = unset mf.pages_ (PGROUNDUP newsize / PGSIZE) (PGROUNDUP mf.size_ / PGSIZE) ∧
        s2 = (mf.resize_nogrow newsize).2 ∧
        (∀ st ∈ mf.resize_nogrow_steps newsize, ∀ i, i < PGROUNDUP st.size_ / PGSIZE →
          st.pages_ i = (mf.resize_nogrow newsize).2.pages_ i)) := by
  constructor
  · intro size pi h
    have hs : mf.resize_append_steps size pi =
        [⟨mf.size_, Function.update mf.pages_ (PGROUNDUP mf.size_ / PGSIZE) (some pi)⟩,
         ⟨size, Function.update mf.pages_ (PGROUNDUP mf.size_ / PGSIZE) (some pi)⟩] := by
      simp only [Mfile.resize_append_steps, h, if_true]
    have hr : (mf.resize_append size pi).2 =
        ⟨size, Function.update mf.pages_ (PGROUNDUP mf.size_ / PGSIZE) (some pi)⟩ := by
      simp only [Mfile.resize_append, h, if_true]
    rw [hs, hr]
    refine ⟨_, _, rfl, rfl, Function.update_same _ _ _, fun i hi => Function.update_noteq hi _ _,
      rfl, rfl, rfl, ?_, ?_⟩
    · intro st hst
      simp only [List.mem_cons, List.mem_singleton, List.not_mem_nil, or_false] at hst
      rcases hst with rfl | rfl <;> exact Function.update_same _ _ _
    · intro st hst i _
      simp only [List.mem_cons, List.mem_singleton, List.not_mem_nil, or_false] at hst
      rcases hst with rfl | rfl <;> rfl
  · intro newsize h
    have hs : mf.resize_nogrow_steps newsize =
        [⟨newsize, mf.pages_⟩,
         ⟨newsize, unset mf.pages_ (PGROUNDUP newsize / PGSIZE) (PGROUNDUP mf.size_ / PGSIZE)⟩] := by
      simp only [Mfile.resize_nogrow_steps, h, if_true]
    rw [hs, resize_nogrow_ok mf newsize h]
    refine ⟨_, _, rfl, rfl, rfl, rfl, rfl, rfl, ?_⟩
    intro st hst i hi
    simp only [List.mem_cons, List.mem_singleton, List.not_mem_nil, or_false] at hst
    rcases hst with rfl | rfl
    · show mf.pages_ i = unset mf.pages_ _ _ i
      have hi2 : i < PGROUNDUP newsize / PGSIZE := hi
      simp only [unset]
      rw [if_neg (by omega)]
    · rfl

/-- Witness for C17 amended: cutting the five-page file back to two pages goes
through a state with the new size and the old page map. -/
theorem resizer_store_order_witness :
    ∃ s1 s2, fivePages.resize_nogrow_steps 8192 = [s1, s2] ∧
      s1.size_ = 8192 ∧ s1.pages_ = fivePages.pages_ ∧
      s2.size_ = 8192 ∧
      s2.pages_ = unset fivePages.pages_ (PGROUNDUP 8192 / PGSIZE)
        (PGROUNDUP fivePages.size_ / PGSIZE) ∧
      s2 = (fivePages.resize_nogrow 8192).2 ∧
      (∀ st ∈ fivePages.resize_nogrow_steps 8192, ∀ i, i < PGROUNDUP st.size_ / PGSIZE →
        st.pages_ i = (fivePages.resize_nogrow 8192).2.pages_ i) :=
  (resizer_store_order fivePages).2 8192 (by decide)

/-! ## The re-check in kmem::alloc -/

/-- C18: in a sequential call of `kmem::alloc` the compare-exchange succeeds in
the first round of the loop and the re-check of the popped run's `next` finds
the value read before it, so the panic is never taken: on every pool the call
returns `nullptr`, the pool untouched, when the head is null, and the head run
otherwise. -/
theorem alloc_no_aba_panic (m : Kmem) (heap : Mem) :
    (∀ fuel, Kmem.alloc_loop (fuel + 1) m heap = some (m.alloc heap)) ∧
    (∀ p, (m.alloc heap).1 ≠ .panic p) ∧ (m.alloc heap).1 ≠ .fuel ∧
    ((m.freelist.ptr = 0 ∧ m.alloc heap = (.ok 0, m)) ∨
      (m.freelist.ptr ≠ 0 ∧ (m.alloc heap).1 = .ok m.freelist.ptr)) := by
  refine ⟨fun fuel => alloc_loop_succ fuel m heap, ?_⟩
  by_cases h : m.freelist.ptr = 0
  · rw [alloc_null m heap h]
    exact ⟨fun p hp => (by cases hp), fun hp => (by cases hp), Or.inl ⟨h, rfl⟩⟩
  · rw [alloc_run m heap h]
    exact ⟨fun p hp => (by cases hp), fun hp => (by cases hp), Or.inr ⟨h, rfl⟩⟩

/-! ## initkalloc: the page loop and pgalloc -/

/-- C19, the code at a failing input: over a map whose first range
`[0x100000, 0x101800)` ends in the middle of a page, the page loop with a quota
of three pages puts the pages at `0x100000`, `0x101000` and `0x200000` on the
pool.  The page at `0x101000` passes both checks of `kfree_pool`, yet its
second half lies in no recorded range. -/
theorem page_loop_partial_page :
    MemOk oddMem ∧ Ordered oddMem ∧
    page_loop demoCfg directMap oddMem false 0x3000 4 oddStart = .ok oddOut ∧
    Chain oddOut.heap oddOut.k.freelist.ptr
      [0xFFFFFF0000200000, 0xFFFFFF0000101000, 0xFFFFFF0000100000] ∧
    directMap.v2p 0xFFFFFF0000101000 = 0x101000 ∧
    InRange oddMem (directMap.v2p 0xFFFFFF0000101000) ∧
    ¬ ChunkInRange directMap oddMem 0xFFFFFF0000101000 PGSIZE ∧
    ¬ InRange oddMem (directMap.v2p 0xFFFFFF0000101000 + 0x800) :=
  ⟨by decide, by decide, rfl, by decide, by decide, by decide, by decide, by decide⟩

/-- C20, the code at a failing input: with `end[]` at an address that is not
page-aligned, the first call of `pgalloc` returns the page at the next page
boundary but moves the cursor only `PGSIZE` past `end`, so the page returned
reaches past the updated `newend`, and `newend` points into that page. -/
theorem pgalloc_page_past_cursor :
    (pgalloc 0xFFFFFFFFC0200800 0 zeroMem).1 = 0xFFFFFFFFC0201000 ∧
    (pgalloc 0xFFFFFFFFC0200800 0 zeroMem).2.1 = 0xFFFFFFFFC0201800 ∧
    ¬ ((pgalloc 0xFFFFFFFFC0200800 0 zeroMem).1 + PGSIZE
        ≤ (pgalloc 0xFFFFFFFFC0200800 0 zeroMem).2.1) ∧
    (pgalloc 0xFFFFFFFFC0200800 0 zeroMem).1 ≤ (pgalloc 0xFFFFFFFFC0200800 0 zeroMem).2.1 ∧
    (pgalloc 0xFFFFFFFFC0200800 0 zeroMem).2.1
      < (pgalloc 0xFFFFFFFFC0200800 0 zeroMem).1 + PGSIZE := by
  decide

/-! ## mfs::alloc and mfs::get -/

theorem variant_of_some (T : MnodeTypes) (type : Nat)
    (h : type = T.dir ∨ type = T.file ∨ type = T.dev ∨ type = T.sock) :
    ∃ v, variant_of T type = some v := by
  unfold variant_of
  split
  · exact ⟨_, rfl⟩
  · split
    · exact ⟨_, rfl⟩
    · split
      · exact ⟨_, rfl⟩
      · split
        · exact ⟨_, rfl⟩
        · rename_i h1 h2 h3 h4
          rcases h with h | h | h | h
          · exact absurd h h1
          · exact absurd h h2
          · exact absurd h h3
          · exact absurd h h4

theorem variant_of_none (T : MnodeTypes) (type : Nat)
    (h : type ≠ T.dir ∧ type ≠ T.file ∧ type ≠ T.dev ∧ type ≠ T.sock) :
    variant_of T type = none := by
  simp only [variant_of, h.1, h.2.1, h.2.2.1, h.2.2.2, if_false]

theorem new_pinned (fs inum : Nat) (refs : Int) :
    (Mnode.new fs inum refs).cache_pin true =
      { fs_ := fs, inum_ := inum, cache_pin_ := true, valid_ := false, refcount := refs + 1 } := by
  rw [cache_pin_flip _ true (by simp [Mnode.new])]
  simp [Mnode.new]

theorem cache_insert_fresh (c : Cache) (key : Nat) (v : NodeObj) (h : c key = none) :
    c.insert key v = (true, Function.update c key (some v)) := by
  simp only [Cache.insert, h]

theorem cache_insert_present (c : Cache) (key : Nat) (v o : NodeObj) (h : c key = some o) :
    c.insert key v = (false, c) := by
  simp only [Cache.insert, h]

/-- The result of `mfs::alloc` for a known type and an inode number that is not
in the cache. -/
theorem mfs_alloc_ok (T : MnodeTypes) (inumber : Nat → Nat → Nat → Nat) (refs : Int)
    (cpu : Nat) (fs : Mfs) (cache : Cache) (type : Nat) (v : Variant)
    (hv : variant_of T type = some v) (hfree : cache (mfs_inum inumber cpu fs type) = none) :
    mfs_alloc T inumber refs cpu fs cache type =
      (.ok ⟨v, ⟨fs.self, mfs_inum inumber cpu fs type, true, true, refs + 1⟩⟩, fs.bump cpu,
        Function.update cache (mfs_inum inumber cpu fs type)
          (some ⟨v, ⟨fs.self, mfs_inum inumber cpu fs type, true, true, refs + 1⟩⟩)) ∧
    mfs_alloc_steps T inumber refs cpu fs cache type =
      [Function.update cache (mfs_inum inumber cpu fs type)
          (some ⟨v, ⟨fs.self, mfs_inum inumber cpu fs type, false, false, refs⟩⟩),
        Function.update cache (mfs_inum inumber cpu fs type)
          (some ⟨v, ⟨fs.self, mfs_inum inumber cpu fs type, true, false, refs + 1⟩⟩),
        Function.update cache (mfs_inum inumber cpu fs type)
          (some ⟨v, ⟨fs.self, mfs_inum inumber cpu fs type, true, true, refs + 1⟩⟩)] := by
  constructor
  · simp only [mfs_alloc, hv, cache_insert_fresh _ _ _ hfree, new_pinned]
    simp
  · simp only [mfs_alloc_steps, hv, cache_insert_fresh _ _ _ hfree, new_pinned]
    simp [Mnode.new]

theorem mfs_get_found (cache : Cache) (inum : Nat) (o : NodeObj) (fuel : Nat)
    (h : cache inum = some o) (hvalid : o.node.valid_ = true) :
    (mfs_get (fuel + 1) cache inum).1 = .ok { o with node := o.node.inc } := by
  have hl : (cache.lookup inum).1 = some { o with node := o.node.inc } := by
    simp only [Cache.lookup, h]
  have hs : spin_valid { o with node := o.node.inc } (fuel + 1) = .ok () := by
    simp only [spin_valid, Mnode.inc, hvalid, if_true]
  simp only [mfs_get, hl, hs]

theorem mfs_get_absent (cache : Cache) (inum : Nat) (fuel : Nat) (h : cache inum = none) :
    mfs_get fuel cache inum = (.panic .read_from_disk, cache) := by
  simp only [mfs_get, Cache.lookup, h]

/-- C14: for a type among `dir`, `file`, `dev` and `sock`, and an inode number
that is not yet in the cache, `mfs::alloc(type)` returns a node of the matching
class.  The node was put into the cache under its inode number while still not
valid and not pinned; it was then pinned, which added exactly one reference,
and last marked valid; on return it is valid and pinned and the cache holds it.
A following `mfs::get` of that number finds it, passes the wait loop at its
first test, and returns it with one more strong reference, without a panic.
For any other type value `alloc` panics, and `get` panics for an inode number
that is not in the cache. -/
theorem mfs_alloc_then_get (T : MnodeTypes) (inumber : Nat → Nat → Nat → Nat) (refs : Int)
    (cpu : Nat) (fs : Mfs) (cache : Cache) (type : Nat) :
    ((type = T.dir ∨ type = T.file ∨ type = T.dev ∨ type = T.sock) →
      cache (mfs_inum inumber cpu fs type) = none →
      ∃ m, (mfs_alloc T inumber refs cpu fs cache type).1 = .ok m ∧
        variant_of T type = some m.variant ∧
        m.node.inum_ = mfs_inum inumber cpu fs type ∧
        m.node.valid_ = true ∧ m.node.cache_pin_ = true ∧ m.node.refcount = refs + 1 ∧
        (mfs_alloc T inumber refs cpu fs cache type).2.2 (mfs_inum inumber cpu fs type) = some m ∧
        (∃ c1 c2 c3 o1 o2, mfs_alloc_steps T inumber refs cpu fs cache type = [c1, c2, c3] ∧
          c1 (mfs_inum inumber cpu fs type) = some o1 ∧
          o1.node.valid_ = false ∧ o1.node.cache_pin_ = false ∧ o1.node.refcount = refs ∧
          c2 (mfs_inum inumber cpu fs type) = some o2 ∧
          o2.node.valid_ = false ∧ o2.node.cache_pin_ = true ∧ o2.node.refcount = refs + 1 ∧
          c3 = (mfs_alloc T inumber refs cpu fs cache type).2.2) ∧
        (∀ fuel, (mfs_get (fuel + 1) (mfs_alloc T inumber refs cpu fs cache type).2.2
            (mfs_inum inumber cpu fs type)).1 = .ok { m with node := m.node.inc })) ∧
    ((type ≠ T.dir ∧ type ≠ T.file ∧ type ≠ T.dev ∧ type ≠ T.sock) →
      (mfs_alloc T inumber refs cpu fs cache type).1 = .panic .unknown_type) ∧
    (∀ inum fuel, cache inum = none →
      (mfs_get fuel cache inum).1 = .panic .read_from_disk) := by
  refine ⟨fun htype hfree => ?_, fun hother => ?_, fun inum fuel h => ?_⟩
  · obtain ⟨v, hv⟩ := variant_of_some T type htype
    obtain ⟨h1, h2⟩ := mfs_alloc_ok T inumber refs cpu fs cache type v hv hfree
    rw [h1, h2]
    refine ⟨_, rfl, hv, rfl, rfl, rfl, rfl, Function.update_same _ _ _,
      ⟨_, _, _, _, _, rfl, Function.update_same _ _ _, rfl, rfl, rfl,
        Function.update_same _ _ _, rfl, rfl, rfl, rfl⟩, fun fuel => ?_⟩
    exact mfs_get_found _ _ _ fuel (Function.update_same _ _ _) rfl
  · simp only [mfs_alloc, variant_of_none T type hother]
  · rw [mfs_get_absent cache inum fuel h]

/-- Witness for C14: on processor 2 a file node is allocated into an empty
cache; it comes back valid, pinned, with one reference more than it was
constructed with. -/
theorem mfs_alloc_then_get_witness :
    ∃ m, (mfs_alloc demoTypes demoInumber 1 2 demoFs emptyCache 2).1 = .ok m ∧
      m.node.valid_ = true ∧ m.node.cache_pin_ = true ∧ m.node.refcount = 2 ∧
      (mfs_get 1 (mfs_alloc demoTypes demoInumber 1 2 demoFs emptyCache 2).2.2
        (mfs_inum demoInumber 2 demoFs 2)).1 = .ok { m with node := m.node.inc } := by
  obtain ⟨m, h1, _, _, h4, h5, h6, _, _, h9⟩ :=
    (mfs_alloc_then_get demoTypes demoInumber 1 2 demoFs emptyCache 2).1 (by decide) rfl
  exact ⟨m, h1, h4, h5, h6, h9 0⟩

/-! ## Inode numbers -/

theorem mfs_alloc_fs (T : MnodeTypes) (inumber : Nat → Nat → Nat → Nat) (refs : Int)
    (cpu : Nat) (fs : Mfs) (cache : Cache) (type : Nat) :
    (mfs_alloc T inumber refs cpu fs cache type).2.1 = fs.bump cpu := by
  unfold mfs_alloc
  split
  · rfl
  · split <;> rfl

theorem allocSeq_nil_of_nil (T : MnodeTypes) (inumber : Nat → Nat → Nat → Nat) (refs : Int)
    (fs : Mfs) (cache : Cache) : allocSeq T inumber refs fs cache [] = [] := rfl

theorem allocSeq_cons (T : MnodeTypes) (inumber : Nat → Nat → Nat → Nat) (refs : Int)
    (fs : Mfs) (cache : Cache) (cpu type : Nat) (rest : List (Nat × Nat)) :
    ∃ c2, allocSeq T inumber refs fs cache ((cpu, type) :: rest) =
        (cpu, fs.next_inum_ cpu, inumber type cpu (fs.next_inum_ cpu)) ::
          allocSeq T inumber refs (fs.bump cpu) c2 rest ∨
      allocSeq T inumber refs fs cache ((cpu, type) :: rest) =
        [(cpu, fs.next_inum_ cpu, inumber type cpu (fs.next_inum_ cpu))] := by
  refine ⟨(mfs_alloc T inumber refs cpu fs cache type).2.2, ?_⟩
  simp only [allocSeq, mfs_inum, mfs_alloc_fs]
  cases (mfs_alloc T inumber refs cpu fs cache type).1 with
  | ok a => exact Or.inl rfl
  | panic e => exact Or.inr rfl
  | fuel => exact Or.inr rfl

theorem bump_next (fs : Mfs) (cpu c : Nat) :
    (fs.bump cpu).next_inum_ c =
      if c = cpu then (fs.next_inum_ cpu + 1) % U64 else fs.next_inum_ c := by
  simp only [Mfs.bump, Function.update_apply]

theorem allocSeq_bounds (T : MnodeTypes) (inumber : Nat → Nat → Nat → Nat) (refs : Int) :
    ∀ (calls : List (Nat × Nat)) (fs : Mfs) (cache : Cache),
    (∀ c, fs.next_inum_ c + calls.length ≤ U64) →
    ∀ e ∈ allocSeq T inumber refs fs cache calls,
      fs.next_inum_ e.1 ≤ e.2.1 ∧ e.2.1 < fs.next_inum_ e.1 + calls.length ∧
      ∃ t, (e.1, t) ∈ calls ∧ e.2.2 = inumber t e.1 e.2.1
  | [], _, _, _, e, he => by simp [allocSeq] at he
  | (cpu, type) :: rest, fs, cache, hb, e, he => by
    have hhead : ∀ e : Nat × Nat × Nat,
        e = (cpu, fs.next_inum_ cpu, inumber type cpu (fs.next_inum_ cpu)) →
        fs.next_inum_ e.1 ≤ e.2.1 ∧ e.2.1 < fs.next_inum_ e.1 + ((cpu, type) :: rest).length ∧
        ∃ t, (e.1, t) ∈ (cpu, type) :: rest ∧ e.2.2 = inumber t e.1 e.2.1 := by
      intro e he
      subst he
      refine ⟨le_refl _, ?_, type, List.mem_cons_self _ _, rfl⟩
      simp only [List.length_cons]
      omega
    obtain ⟨c2, hc | hc⟩ := allocSeq_cons T inumber refs fs cache cpu type rest
    · rw [hc] at he
      rcases List.mem_cons.1 he with h | h
      · exact hhead e h
      · have hlen : 1 ≤ rest.length := by
          cases rest with
          | nil => simp [allocSeq] at h
          | cons _ _ => simp
        have hcpu := hb cpu
        simp only [List.length_cons] at hcpu
        have hb2 : ∀ c, (fs.bump cpu).next_inum_ c + rest.length ≤ U64 := by
          intro c
          rw [bump_next]
          have := hb c
          simp only [List.length_cons] at this
          split
          · rw [Nat.mod_eq_of_lt (by omega)]
            omega
          · omega
        obtain ⟨a1, a2, t, a3, a4⟩ := allocSeq_bounds T inumber refs rest (fs.bump cpu) c2 hb2 e h
        rw [bump_next] at a1 a2
        refine ⟨?_, ?_, t, List.mem_cons_of_mem _ a3, a4⟩
        · split at a1
          · rename_i heq
            rw [heq]
            rw [Nat.mod_eq_of_lt (by omega)] at a1
            omega
          · exact a1
        · simp only [List.length_cons]
          split at a2
          · rename_i heq
            rw [heq]
            rw [Nat.mod_eq_of_lt (by omega)] at a2
            omega
          · omega
    · rw [hc] at he
      exact hhead e (List.mem_singleton.1 he)

theorem allocSeq_increasing (T : MnodeTypes) (inumber : Nat → Nat → Nat → Nat) (refs : Int) :
    ∀ (calls : List (Nat × Nat)) (fs : Mfs) (cache : Cache),
    (∀ c, fs.next_inum_ c + calls.length ≤ U64) →
    (allocSeq T inumber refs fs cache calls).Pairwise (fun a b => a.1 = b.1 → a.2.1 < b.2.1)
  | [], _, _, _ => by simp [allocSeq]
  | (cpu, type) :: rest, fs, cache, hb => by
    obtain ⟨c2, hc | hc⟩ := allocSeq_cons T inumber refs fs cache cpu type rest
    · rw [hc]
      have hb2 : ∀ c, (fs.bump cpu).next_inum_ c + rest.length ≤ U64 := by
        intro c
        rw [bump_next]
        have := hb c
        have hcpu := hb cpu
        simp only [List.length_cons] at this hcpu
        split
        · have := Nat.mod_le (fs.next_inum_ cpu + 1) U64
          omega
        · omega
      refine List.pairwise_cons.2 ⟨fun e he heq => ?_,
        allocSeq_increasing T inumber refs rest (fs.bump cpu) c2 hb2⟩
      have hlen : 1 ≤ rest.length := by
        cases rest with
        | nil => simp [allocSeq] at he
        | cons _ _ => simp
      obtain ⟨a1, _, _⟩ := allocSeq_bounds T inumber refs rest (fs.bump cpu) c2 hb2 e he
      have hcpu := hb cpu
      simp only [List.length_cons] at hcpu
      rw [bump_next, if_pos heq.symm, Nat.mod_eq_of_lt (by omega)] at a1
      show fs.next_inum_ cpu < e.2.1
      omega
    · rw [hc]
      exact List.pairwise_singleton _ _

/-- C15: in every history of `mfs::alloc` calls on any processors, as long as
the sequence counters stay within their field width `W`, each call uses the
pair of its processor id and that processor's counter as it stood before the
increment; calls on one processor use strictly increasing sequence values; no
two calls use the same pair; and, for a packing that is injective on types,
processors and sequence values within their widths, no two calls compute the
same inode number. -/
theorem alloc_inums_distinct (T : MnodeTypes) (inumber : Nat → Nat → Nat → Nat) (refs : Int)
    (W C : Nat) (fs : Mfs) (cache : Cache) (calls : List (Nat × Nat))
    (hW : W ≤ U64) (hseq : ∀ c, fs.next_inum_ c + calls.length ≤ W)
    (hcalls : ∀ call ∈ calls, call.1 < C ∧ call.2 < 256)
    (hinj : ∀ t1 c1 s1 t2 c2 s2, t1 < 256 → t2 < 256 → c1 < C → c2 < C → s1 < W → s2 < W →
      inumber t1 c1 s1 = inumber t2 c2 s2 → t1 = t2 ∧ c1 = c2 ∧ s1 = s2) :
    (∀ e ∈ allocSeq T inumber refs fs cache calls,
      ∃ t, (e.1, t) ∈ calls ∧ e.2.2 = inumber t e.1 e.2.1) ∧
    (∀ cpu type rest, calls = (cpu, type) :: rest →
      (allocSeq T inumber refs fs cache calls).head? =
        some (cpu, fs.next_inum_ cpu, inumber type cpu (fs.next_inum_ cpu))) ∧
    (allocSeq T inumber refs fs cache calls).Pairwise (fun a b => a.1 = b.1 → a.2.1 < b.2.1) ∧
    ((allocSeq T inumber refs fs cache calls).map (fun e => (e.1, e.2.1))).Nodup ∧
    ((allocSeq T inumber refs fs cache calls).map (fun e => e.2.2)).Nodup := by
  have hb : ∀ c, fs.next_inum_ c + calls.length ≤ U64 := fun c => le_trans (hseq c) hW
  have hbounds := allocSeq_bounds T inumber refs calls fs cache hb
  have hinc := allocSeq_increasing T inumber refs calls fs cache hb
  refine ⟨fun e he => (hbounds e he).2.2, ?_, hinc, ?_, ?_⟩
  · intro cpu type rest hcalls2
    subst hcalls2
    obtain ⟨c2, hc | hc⟩ := allocSeq_cons T inumber refs fs cache cpu type rest <;> rw [hc] <;> rfl
  · rw [List.Nodup, List.pairwise_map]
    refine hinc.imp ?_
    intro a b hab heq
    have h1 : a.1 = b.1 := (Prod.mk.inj heq).1
    have h2 : a.2.1 = b.2.1 := (Prod.mk.inj heq).2
    have := hab h1
    omega
  · rw [List.Nodup, List.pairwise_map]
    refine (List.Pairwise.and_mem.1 hinc).imp ?_
    intro a b hab heq
    obtain ⟨ha, hb2, hlt⟩ := hab
    obtain ⟨a1, a2, ta, a3, a4⟩ := hbounds a ha
    obtain ⟨b1, b2, tb, b3, b4⟩ := hbounds b hb2
    have hsa := hseq a.1
    have hsb := hseq b.1
    have hca := hcalls _ a3
    have hcb := hcalls _ b3
    rw [a4, b4] at heq
    obtain ⟨_, e2, e3⟩ := hinj ta a.1 a.2.1 tb b.1 b.2.1 hca.2 hcb.2 hca.1 hcb.1 (by omega)
      (by omega) heq
    have := hlt e2
    omega

theorem demoInumber_inj : ∀ t1 c1 s1 t2 c2 s2, t1 < 256 → t2 < 256 → c1 < 256 → c2 < 256 →
    s1 < 2 ^ 48 → s2 < 2 ^ 48 → demoInumber t1 c1 s1 = demoInumber t2 c2 s2 →
    t1 = t2 ∧ c1 = c2 ∧ s1 = s2 := by
  intro t1 c1 s1 t2 c2 s2 _ _ _ _ _ _ h
  unfold demoInumber at h
  omega

/-- Witness for C15: processors 0 and 1 take turns allocating two nodes each;
the four inode numbers differ. -/
theorem alloc_inums_distinct_witness :
    ((allocSeq demoTypes demoInumber 1 demoFs emptyCache [(0, 2), (1, 2), (0, 1), (1, 3)]).map
      (fun e => e.2.2)).Nodup :=
  (alloc_inums_distinct demoTypes demoInumber 1 (2 ^ 48) 256 demoFs emptyCache
    [(0, 2), (1, 2), (0, 1), (1, 3)] (by decide)
    (fun _ => (by show 0 + 4 ≤ 2 ^ 48; decide)) (by decide) demoInumber_inj).2.2.2.2

/-! ## Concurrent calls on one pool -/

theorem chain_head_mem (heap : Mem) (p : Nat) (l : List Nat) (h : Chain heap p l) (hp : p ≠ 0) :
    p ∈ l := by
  cases l with
  | nil => exact absurd h hp
  | cons r rs =>
    have h1 := (chain_cons heap p r rs).1 h
    rw [h1.1]
    exact List.mem_cons_self _ _

/-- What a processor knows stays true when the head either stays or moves on
to a later tag, the runs in the processor's hands stay off the list, out of
the record and unwritten, and the head run stays unwritten. -/
theorem threadOk_frame (head head2 : VPtr) (heap heap2 : Mem) (l l2 out out2 : List Nat) (c : PC)
    (h : ThreadOk head heap l out c)
    (hhead : head2 = head ∨ head.ver < head2.ver)
    (hheld : ∀ x, c.held = some x → x ∉ l2 ∧ x ∉ out2 ∧ heap2 x = heap x)
    (hptr : head2 = head → head.ptr ≠ 0 → heap2 head.ptr = heap head.ptr) :
    ThreadOk head2 heap2 l2 out2 c := by
  cases c with
  | idle => trivial
  | a_start => trivial
  | a_loaded hv =>
    obtain ⟨h1, h2, h3⟩ := h
    rcases hhead with e | e
    · subst e
      exact ⟨h1, h2, h3⟩
    · exact ⟨h1, by omega, fun e2 => by omega⟩
  | a_read hv nxt =>
    obtain ⟨h1, h2, h3⟩ := h
    rcases hhead with e | e
    · subst e
      refine ⟨h1, h2, fun e2 => ?_⟩
      obtain ⟨e3, e4⟩ := h3 e2
      refine ⟨e3, ?_⟩
      subst e3
      rw [hptr rfl h1]
      exact e4
    · exact ⟨h1, by omega, fun e2 => by omega⟩
  | a_popped r nxt =>
    obtain ⟨h1, _, _, h4⟩ := h
    obtain ⟨g1, g2, g3⟩ := hheld r rfl
    exact ⟨h1, g1, g2, by rw [g3]; exact h4⟩
  | a_counted r =>
    obtain ⟨h1, _, _⟩ := h
    obtain ⟨g1, g2, _⟩ := hheld r rfl
    exact ⟨h1, g1, g2⟩
  | f_start r =>
    obtain ⟨h1, _, _⟩ := h
    obtain ⟨g1, g2, _⟩ := hheld r rfl
    exact ⟨h1, g1, g2⟩
  | f_loaded r hv =>
    obtain ⟨h1, _, _⟩ := h
    obtain ⟨g1, g2, _⟩ := hheld r rfl
    exact ⟨h1, g1, g2⟩
  | f_stored r hv =>
    obtain ⟨h1, _, _, h4⟩ := h
    obtain ⟨g1, g2, g3⟩ := hheld r rfl
    exact ⟨h1, g1, g2, by rw [g3]; exact h4⟩
  | f_pushed r => trivial

/-- A run in a processor's hands is off the list and out of the record. -/
theorem threadOk_held (head : VPtr) (heap : Mem) (l out : List Nat) (c : PC) (x : Nat)
    (h : ThreadOk head heap l out c) (hx : c.held = some x) : x ≠ 0 ∧ x ∉ l ∧ x ∉ out := by
  cases c <;> simp only [PC.held, Option.some.injEq] at hx <;> first
    | exact absurd hx (by simp)
    | (subst hx; exact ⟨h.1, h.2.1, h.2.2.1⟩)
    | (subst hx; exact ⟨h.1, h.2.1, h.2.2⟩)

/-- The invariant after processor `t` has moved to the point `c`. -/
theorem cinv_update (s s2 : CState) (l l2 : List Nat) (t : Nat) (c : PC)
    (h : CInv s l) (hpc : s2.pc = Function.update s.pc t c)
    (hchain : Chain s2.heap s2.freelist.ptr l2) (hnd : s2.out.Nodup)
    (hout : ∀ r ∈ s2.out, r ∉ l2)
    (hself : ThreadOk s2.freelist s2.heap l2 s2.out c)
    (hothers : ∀ u, u ≠ t → ThreadOk s2.freelist s2.heap l2 s2.out (s.pc u))
    (hheld : ∀ r, c.held = some r → ∀ u, u ≠ t → (s.pc u).held ≠ some r)
    (hp : s2.panicked = false) : CInv s2 l2 := by
  refine ⟨hchain, hnd, hout, fun u => ?_, fun u w r huw hu => ?_, hp⟩
  · rw [hpc]
    by_cases e : u = t
    · subst e
      rw [Function.update_same]
      exact hself
    · rw [Function.update_noteq e]
      exact hothers u e
  · rw [hpc] at hu ⊢
    by_cases e : u = t
    · subst e
      rw [Function.update_same] at hu
      rw [Function.update_noteq (Ne.symm huw)]
      exact hheld r hu w (Ne.symm huw)
    · rw [Function.update_noteq e] at hu
      by_cases e2 : w = t
      · subst e2
        rw [Function.update_same]
        intro hc
        exact hheld r hc u e hu
      · rw [Function.update_noteq e2]
        exact h.2.2.2.2.1 u w r huw hu


theorem ce_eq (cur expected : VPtr) (desired : Nat) (h : cur = expected) :
    cur.compare_exchange expected desired = (true, { ptr := desired, ver := cur.ver + 1 }) := by
  simp only [VPtr.compare_exchange, h, if_true]

theorem ce_ne (cur expected : VPtr) (desired : Nat) (h : cur ≠ expected) :
    cur.compare_exchange expected desired = (false, cur) := by
  simp only [VPtr.compare_exchange, h, if_false]

theorem held_none_of (c : PC) (h : c.held = none) (r : Nat) : c.held ≠ some r := by
  rw [h]
  exact fun e => by cases e

/-- The invariant is kept by every access of a processor to shared memory. -/
theorem cinv_runThread (s : CState) (l : List Nat) (h : CInv s l) (t : Nat) :
    ∃ l2, CInv (s.runThread t) l2 := by
  obtain ⟨hchain, hnd, hout, hthr, hpair, hpan⟩ := h
  have hinv : CInv s l := ⟨hchain, hnd, hout, hthr, hpair, hpan⟩
  have hT := hthr t
  have hheldof : ∀ u x, (s.pc u).held = some x → x ≠ 0 ∧ x ∉ l ∧ x ∉ s.out :=
    fun u x hx => threadOk_held _ _ _ _ _ x (hthr u) hx
  cases hpc : s.pc t with
  | idle =>
    refine ⟨l, ?_⟩
    simp only [CState.runThread, hpc]
    exact hinv
  | a_start =>
    refine ⟨l, ?_⟩
    simp only [CState.runThread, hpc]
    split
    · exact cinv_update s _ l l t _ hinv rfl hchain hnd hout trivial (fun u _ => hthr u)
        (fun r hr => by simp [PC.held] at hr) hpan
    · rename_i hne
      exact cinv_update s _ l l t _ hinv rfl hchain hnd hout ⟨hne, le_refl _, fun _ => rfl⟩
        (fun u _ => hthr u) (fun r hr => by simp [PC.held] at hr) hpan
  | a_loaded hv =>
    rw [hpc] at hT
    refine ⟨l, ?_⟩
    simp only [CState.runThread, hpc]
    exact cinv_update s _ l l t _ hinv rfl hchain hnd hout
      ⟨hT.1, hT.2.1, fun e => ⟨hT.2.2 e, rfl⟩⟩
      (fun u _ => hthr u) (fun r hr => by simp [PC.held] at hr) hpan
  | a_read hv nxt =>
    rw [hpc] at hT
    by_cases e : s.freelist = hv
    · obtain ⟨e1, e2⟩ := hT.2.2 (congrArg VPtr.ver e).symm
      have hne : s.freelist.ptr ≠ 0 := by rw [e]; exact hT.1
      cases l with
      | nil => exact absurd hchain hne
      | cons r rs =>
        obtain ⟨c1, c2, c3⟩ := (chain_cons s.heap _ r rs).1 hchain
        have hnd2 := List.nodup_cons.1 (chain_nodup s.heap _ _ hchain)
        have hr : hv.ptr = r := by rw [← e]; exact c1
        have hnx : s.heap r = nxt := by rw [← hr]; exact e2
        refine ⟨rs, ?_⟩
        simp only [CState.runThread, hpc, ce_eq _ _ _ e, if_true]
        refine cinv_update s _ (r :: rs) rs t _ hinv rfl ?_ hnd
          (fun x hx hmem => hout x hx (List.mem_cons_of_mem _ hmem)) ?_ ?_ ?_ hpan
        · show Chain s.heap nxt rs
          rw [← hnx]
          exact c3
        · rw [hr]
          exact ⟨c2, hnd2.1, fun hmem => hout r hmem (List.mem_cons_self _ _), hnx⟩
        · intro u _
          refine threadOk_frame s.freelist _ s.heap s.heap (r :: rs) rs s.out s.out _ (hthr u)
            (Or.inr (Nat.lt_succ_self _)) (fun x hx => ?_) (fun e3 => ?_)
          · obtain ⟨_, g2, g3⟩ := hheldof u x hx
            exact ⟨fun hmem => g2 (List.mem_cons_of_mem _ hmem), g3, rfl⟩
          · exact absurd (congrArg VPtr.ver e3) (Nat.succ_ne_self _)
        · intro x hx u _ hu
          simp only [PC.held, Option.some.injEq] at hx
          rw [← hx, hr] at hu
          exact (hheldof u r hu).2.1 (List.mem_cons_self _ _)
    · refine ⟨l, ?_⟩
      simp only [CState.runThread, hpc, ce_ne _ _ _ e]
      exact cinv_update s _ l l t _ hinv rfl hchain hnd hout trivial (fun u _ => hthr u)
        (fun r hr => by simp [PC.held] at hr) hpan
  | a_popped r nxt =>
    rw [hpc] at hT
    refine ⟨l, ?_⟩
    simp only [CState.runThread, hpc, hT.2.2.2, ne_eq, not_true_eq_false, if_false]
    exact cinv_update s _ l l t _ hinv rfl hchain hnd hout ⟨hT.1, hT.2.1, hT.2.2.1⟩
      (fun u _ => hthr u)
      (fun x hx u hu => by
        simp only [PC.held, Option.some.injEq] at hx
        rw [← hx]
        exact hpair t u r (Ne.symm hu) (by rw [hpc]; rfl)) hpan
  | a_counted r =>
    rw [hpc] at hT
    refine ⟨l, ?_⟩
    simp only [CState.runThread, hpc]
    refine cinv_update s _ l l t _ hinv rfl hchain (List.nodup_cons.2 ⟨hT.2.2, hnd⟩) ?_ trivial ?_
      (fun r hr => by simp [PC.held] at hr) hpan
    · intro x hx
      rcases List.mem_cons.1 hx with rfl | hx
      · exact hT.2.1
      · exact hout x hx
    · intro u hu
      refine threadOk_frame s.freelist _ s.heap s.heap l l s.out _ _ (hthr u) (Or.inl rfl)
        (fun x hx => ?_) (fun _ _ => rfl)
      obtain ⟨_, g2, g3⟩ := hheldof u x hx
      refine ⟨g2, fun hmem => ?_, rfl⟩
      rcases List.mem_cons.1 hmem with rfl | hmem
      · exact hpair t u x (Ne.symm hu) (by rw [hpc]; rfl) hx
      · exact g3 hmem
  | f_start r =>
    rw [hpc] at hT
    refine ⟨l, ?_⟩
    simp only [CState.runThread, hpc]
    exact cinv_update s _ l l t _ hinv rfl hchain hnd hout hT (fun u _ => hthr u)
      (fun x hx u hu => by
        simp only [PC.held, Option.some.injEq] at hx
        rw [← hx]
        exact hpair t u r (Ne.symm hu) (by rw [hpc]; rfl)) hpan
  | f_loaded r hv =>
    rw [hpc] at hT
    refine ⟨l, ?_⟩
    simp only [CState.runThread, hpc]
    have hagree : ∀ x ∈ l, s.heap x = Function.update s.heap r hv.ptr x := by
      intro x hx
      rw [Function.update_noteq]
      intro e
      exact hT.2.1 (e ▸ hx)
    refine cinv_update s _ l l t _ hinv rfl (chain_congr s.heap _ l _ hagree hchain) hnd hout
      ⟨hT.1, hT.2.1, hT.2.2, Function.update_same _ _ _⟩ ?_ ?_ hpan
    · intro u hu
      refine threadOk_frame s.freelist _ s.heap _ l l s.out s.out _ (hthr u) (Or.inl rfl)
        (fun x hx => ?_) (fun _ hne => ?_)
      · obtain ⟨_, g2, g3⟩ := hheldof u x hx
        refine ⟨g2, g3, Function.update_noteq ?_ _ _⟩
        intro e
        subst e
        exact hpair t u x (Ne.symm hu) (by rw [hpc]; rfl) hx
      · exact (hagree _ (chain_head_mem _ _ _ hchain hne)).symm
    · intro x hx u hu
      simp only [PC.held, Option.some.injEq] at hx
      rw [← hx]
      exact hpair t u r (Ne.symm hu) (by rw [hpc]; rfl)
  | f_stored r hv =>
    rw [hpc] at hT
    by_cases e : s.freelist = hv
    · refine ⟨r :: l, ?_⟩
      simp only [CState.runThread, hpc, ce_eq _ _ _ e, if_true]
      refine cinv_update s _ l (r :: l) t _ hinv rfl ?_ hnd ?_ trivial ?_
        (fun r hr => by simp [PC.held] at hr) hpan
      · refine (chain_cons _ r r l).2 ⟨rfl, hT.1, ?_⟩
        show Chain s.heap (s.heap r) l
        rw [hT.2.2.2, ← e]
        exact hchain
      · intro x hx hmem
        rcases List.mem_cons.1 hmem with rfl | hmem
        · exact hT.2.2.1 hx
        · exact hout x hx hmem
      · intro u hu
        refine threadOk_frame s.freelist _ s.heap s.heap l (r :: l) s.out s.out _ (hthr u)
          (Or.inr (Nat.lt_succ_self _)) (fun x hx => ?_) (fun e3 => ?_)
        · obtain ⟨_, g2, g3⟩ := hheldof u x hx
          refine ⟨fun hmem => ?_, g3, rfl⟩
          rcases List.mem_cons.1 hmem with rfl | hmem
          · exact hpair t u x (Ne.symm hu) (by rw [hpc]; rfl) hx
          · exact g2 hmem
        · exact absurd (congrArg VPtr.ver e3) (Nat.succ_ne_self _)
    · refine ⟨l, ?_⟩
      simp only [CState.runThread, hpc, ce_ne _ _ _ e]
      exact cinv_update s _ l l t _ hinv rfl hchain hnd hout ⟨hT.1, hT.2.1, hT.2.2.1⟩
        (fun u _ => hthr u)
        (fun x hx u hu => by
          simp only [PC.held, Option.some.injEq] at hx
          rw [← hx]
          exact hpair t u r (Ne.symm hu) (by rw [hpc]; rfl)) hpan
  | f_pushed r =>
    refine ⟨l, ?_⟩
    simp only [CState.runThread, hpc]
    exact cinv_update s _ l l t _ hinv rfl hchain hnd hout trivial (fun u _ => hthr u)
      (fun r hr => by simp [PC.held] at hr) hpan


/-- The invariant is kept by every event that meets `LabelOk`. -/
theorem cinv_step (s : CState) (l : List Nat) (h : CInv s l) (lab : Label) (hlab : LabelOk s lab) :
    ∃ l2, CInv (s.step lab) l2 := by
  obtain ⟨hchain, hnd, hout, hthr, hpair, hpan⟩ := h
  have hinv : CInv s l := ⟨hchain, hnd, hout, hthr, hpair, hpan⟩
  have hheldof : ∀ u x, (s.pc u).held = some x → x ≠ 0 ∧ x ∉ l ∧ x ∉ s.out :=
    fun u x hx => threadOk_held _ _ _ _ _ x (hthr u) hx
  cases lab with
  | call_alloc t =>
    refine ⟨l, ?_⟩
    simp only [CState.step, hpan, Bool.false_eq_true, if_false]
    exact cinv_update s _ l l t _ hinv rfl hchain hnd hout trivial (fun u _ => hthr u)
      (fun r hr => by simp [PC.held] at hr) hpan
  | call_free t r =>
    obtain ⟨_, hr0, hrl, hru⟩ := hlab
    refine ⟨l, ?_⟩
    simp only [CState.step, hpan, Bool.false_eq_true, if_false]
    refine cinv_update s _ l l t _ hinv rfl hchain (hnd.erase r)
      (fun x hx => hout x (List.mem_of_mem_erase hx))
      ⟨hr0, hrl l hchain, fun hmem => (List.Nodup.mem_erase_iff hnd).1 hmem |>.1 rfl⟩ ?_ ?_ rfl
    · intro u _
      refine threadOk_frame s.freelist _ s.heap s.heap l l s.out _ _ (hthr u) (Or.inl rfl)
        (fun x hx => ?_) (fun _ _ => rfl)
      obtain ⟨_, g2, g3⟩ := hheldof u x hx
      exact ⟨g2, fun hmem => g3 (List.mem_of_mem_erase hmem), rfl⟩
    · intro x hx u _
      simp only [PC.held, Option.some.injEq] at hx
      rw [← hx]
      exact hru u
  | run t =>
    simp only [CState.step, hpan, Bool.false_eq_true, if_false]
    exact cinv_runThread s l hinv t
  | scribble r v =>
    have hr : r ∈ s.out := hlab
    refine ⟨l, ?_⟩
    simp only [CState.step, hpan, Bool.false_eq_true, if_false]
    have hagree : ∀ x ∈ l, s.heap x = Function.update s.heap r v x := by
      intro x hx
      rw [Function.update_noteq]
      intro e
      exact hout r hr (e ▸ hx)
    refine ⟨chain_congr s.heap _ l _ hagree hchain, hnd, hout, fun u => ?_, hpair, rfl⟩
    refine threadOk_frame s.freelist _ s.heap _ l l s.out s.out _ (hthr u) (Or.inl rfl)
      (fun x hx => ?_) (fun _ hne => ?_)
    · obtain ⟨_, g2, g3⟩ := hheldof u x hx
      refine ⟨g2, g3, Function.update_noteq ?_ _ _⟩
      intro e
      exact g3 (e ▸ hr)
    · exact (hagree _ (chain_head_mem _ _ _ hchain hne)).symm

theorem cinv_atRest (s : CState) (l : List Nat) (h : AtRest s l) : CInv s l := by
  obtain ⟨h1, h2, h3, h4⟩ := h
  refine ⟨h1, by rw [h3]; exact List.nodup_nil, by rw [h3]; simp, fun t => ?_,
    fun t u r _ ht => ?_, h4⟩
  · rw [h2 t]
    trivial
  · rw [h2 t] at ht
    simp [PC.held] at ht

theorem cinv_exec : ∀ (sched : List Label) (s : CState) (l : List Nat), CInv s l →
    SchedOk s sched → ∃ l2, CInv (s.exec sched) l2
  | [], s, l, h, _ => ⟨l, h⟩
  | lab :: rest, s, l, h, hok => by
    obtain ⟨l2, h2⟩ := cinv_step s l h lab hok.1
    exact cinv_exec rest (s.step lab) l2 h2 hok.2

theorem exec_append (s : CState) (a b : List Label) : s.exec (a ++ b) = (s.exec a).exec b := by
  simp only [CState.exec, List.foldl_append]

theorem schedOk_append : ∀ (a b : List Label) (s : CState),
    SchedOk s (a ++ b) → SchedOk s a ∧ SchedOk (s.exec a) b
  | [], _, _, h => ⟨trivial, h⟩
  | lab :: rest, b, s, h => by
    obtain ⟨h1, h2⟩ := schedOk_append rest b (s.step lab) h.2
    exact ⟨⟨h.1, h1⟩, h2⟩

theorem runThread_out (s : CState) (t : Nat) :
    (s.runThread t).out = s.out ∨ ∃ r, (s.runThread t).out = r :: s.out := by
  cases hpc : s.pc t with
  | idle => left; simp only [CState.runThread, hpc]
  | a_start => left; simp only [CState.runThread, hpc]; split <;> rfl
  | a_loaded hv => left; simp only [CState.runThread, hpc]; rfl
  | a_read hv nxt => left; simp only [CState.runThread, hpc]; split <;> rfl
  | a_popped r nxt => left; simp only [CState.runThread, hpc]; split <;> rfl
  | a_counted r => right; exact ⟨r, by simp only [CState.runThread, hpc]⟩
  | f_start r => left; simp only [CState.runThread, hpc]; rfl
  | f_loaded r hv => left; simp only [CState.runThread, hpc]
  | f_stored r hv => left; simp only [CState.runThread, hpc]; split <;> rfl
  | f_pushed r => left; simp only [CState.runThread, hpc]

/-- A run stays in the record of allocated runs through every event that is
not a call of `free` on it. -/
theorem out_step (s : CState) (lab : Label) (r : Nat) (hr : r ∈ s.out)
    (hlab : ∀ t, lab ≠ .call_free t r) : r ∈ (s.step lab).out := by
  unfold CState.step
  split
  · exact hr
  · cases lab with
    | call_alloc t => exact hr
    | call_free t x =>
      have hne : r ≠ x := fun e => hlab t (by rw [e])
      exact (List.mem_erase_of_ne hne).2 hr
    | run t =>
      show r ∈ (s.runThread t).out
      rcases runThread_out s t with e | ⟨x, e⟩
      · rw [e]; exact hr
      · rw [e]; exact List.mem_cons_of_mem _ hr
    | scribble x v => exact hr

theorem out_exec : ∀ (sched : List Label) (s : CState) (r : Nat), r ∈ s.out →
    (∀ t, Label.call_free t r ∉ sched) → r ∈ (s.exec sched).out
  | [], _, _, hr, _ => hr
  | lab :: rest, s, r, hr, hno => by
    refine out_exec rest (s.step lab) r (out_step s lab r hr (fun t e => ?_))
      (fun t hmem => hno t (List.mem_cons_of_mem _ hmem))
    exact hno t (e ▸ List.mem_cons_self _ _)

/-- The event that hands out `r` puts `r` on the record, and before it `r` is
in the hands of the processor. -/
theorem handsOut_spec (s : CState) (lab : Label) (r : Nat) (h : handsOut s lab = some r) :
    ∃ t, lab = .run t ∧ s.pc t = .a_counted r ∧ s.panicked = false ∧ r ∈ (s.step lab).out := by
  cases lab with
  | run t =>
    simp only [handsOut] at h
    split at h
    · cases h
    · rename_i hp
      split at h
      · rename_i r2 hpc
        simp only [Option.some.injEq] at h
        subst h
        refine ⟨t, rfl, hpc, by simpa using hp, ?_⟩
        simp only [CState.step, hp, if_false, CState.runThread, hpc]
        exact List.mem_cons_self _ _
      · cases h
  | call_alloc t => simp [handsOut] at h
  | call_free t x => simp [handsOut] at h
  | scribble x v => simp [handsOut] at h


/-- C16: processors run `kmem::alloc` and `kmem::free` on one pool, their
accesses to shared memory interleaved in any order, the head carrying a tag
that every successful exchange renews; callers pass to `free` only runs that
they alone have, and write only to runs they have been given.  From a pool at
rest, in every state reached the kernel has not taken the panic of `alloc`,
the runs handed out and not yet freed are pairwise distinct, and a run about to
be handed out is neither among them nor on the free list.  So between two
events that hand out the same run there is a call of `free` on that run. -/
theorem no_double_handout (s0 : CState) (l0 : List Nat) (h0 : AtRest s0 l0) :
    (∀ sched, SchedOk s0 sched →
      (s0.exec sched).panicked = false ∧ (s0.exec sched).out.Nodup ∧
      ∀ lab r, handsOut (s0.exec sched) lab = some r →
        r ∉ (s0.exec sched).out ∧
        ∀ l, Chain (s0.exec sched).heap (s0.exec sched).freelist.ptr l → r ∉ l) ∧
    (∀ pre mid l1 l2 r, SchedOk s0 (pre ++ l1 :: (mid ++ [l2])) →
      handsOut (s0.exec pre) l1 = some r →
      handsOut (s0.exec (pre ++ l1 :: mid)) l2 = some r →
      ∃ t, Label.call_free t r ∈ mid) := by
  have hinv0 := cinv_atRest s0 l0 h0
  have hA : ∀ sched, SchedOk s0 sched → ∀ lab r, handsOut (s0.exec sched) lab = some r →
      r ∉ (s0.exec sched).out ∧
      ∀ l, Chain (s0.exec sched).heap (s0.exec sched).freelist.ptr l → r ∉ l := by
    intro sched hok lab r hh
    obtain ⟨l2, hc, _, _, hthr, _, _⟩ := cinv_exec sched s0 l0 hinv0 hok
    obtain ⟨t, _, hpc, _, _⟩ := handsOut_spec _ lab r hh
    have hT := hthr t
    rw [hpc] at hT
    exact ⟨hT.2.2, fun l hl => by rw [chain_unique _ l l2 _ hl hc]; exact hT.2.1⟩
  refine ⟨fun sched hok => ?_, fun pre mid l1 l2 r hok h1 h2 => ?_⟩
  · obtain ⟨l2, hc⟩ := cinv_exec sched s0 l0 hinv0 hok
    exact ⟨hc.2.2.2.2.2, hc.2.1, hA sched hok⟩
  · by_contra hno
    have hno2 : ∀ t, Label.call_free t r ∉ mid := fun t hmem => hno ⟨t, hmem⟩
    have hok2 : SchedOk s0 (pre ++ l1 :: mid) := by
      have : pre ++ l1 :: (mid ++ [l2]) = (pre ++ l1 :: mid) ++ [l2] := by simp
      rw [this] at hok
      exact (schedOk_append _ _ s0 hok).1
    obtain ⟨_, _, _, _, hin⟩ := handsOut_spec _ l1 r h1
    have hmem : r ∈ (s0.exec (pre ++ l1 :: mid)).out := by
      rw [exec_append]
      exact out_exec mid _ r hin hno2
    exact (hA _ hok2 l2 r h2).1 hmem

/-- No run is in the hands of a processor when every processor is idle. -/
theorem allIdle_held (s : CState) (r : Nat) (h : ∀ u, s.pc u = .idle) :
    ∀ u, (s.pc u).held ≠ some r := by
  intro u
  rw [h u]
  exact fun e => by cases e

/-- Witness for C16: processor 0 allocates the only run, processor 1 frees it,
processor 2 allocates it again; the call of `free` lies between the two events
that hand the run out. -/
theorem no_double_handout_witness :
    ∃ t, Label.call_free t 0x1000 ∈
      [Label.call_free 1 0x1000, .run 1, .run 1, .run 1, .run 1, .call_alloc 2, .run 2, .run 2,
        .run 2, .run 2] :=
  (no_double_handout restPool [0x1000] ⟨by decide, fun _ => rfl, rfl, rfl⟩).2
    [.call_alloc 0, .run 0, .run 0, .run 0, .run 0]
    [.call_free 1 0x1000, .run 1, .run 1, .run 1, .run 1, .call_alloc 2, .run 2, .run 2,
      .run 2, .run 2]
    (.run 0) (.run 2) 0x1000
    ⟨rfl, trivial, trivial, trivial, trivial, trivial,
      ⟨rfl, by decide, not_on_chain _ _ _ [] (by decide) (by decide),
        allIdle_held _ _ (fun u => by
          by_cases h : u = 0
          · subst h; rfl
          · simp [CState.step, CState.runThread, CState.goto, restPool, Function.update_apply, h,
              VPtr.compare_exchange, zeroMem])⟩,
      trivial, trivial, trivial, trivial, rfl, trivial, trivial, trivial, trivial, trivial, trivial⟩
    (by decide) (by decide)

end Sv6
